import Mathlib

/-!
Verification development for the WIGO token-metrics collector
(`wigo_rpc_v003.py`, class `WigoMetricsCollector`).

The Python source is shallowly embedded as follows.

* Python floats are modelled by `Fl`, an exact dyadic number `m * 2^e`
  kept in IEEE-754 binary64 normal form (`m = 0`, or `2^52 ≤ |m| < 2^53`).
  `Fl.ofNat`, `Fl.add` and `Fl.div` implement correctly rounded
  (round-to-nearest, ties-to-even) conversion, addition and division,
  exactly as CPython's binary64 arithmetic behaves on the normal range.
  Overflow to infinity and subnormals are outside the range of any value
  that occurs in this program and are not modelled; `natLog2` uses a
  fuel of 300, which is exact for every argument below `2^300` (all
  mantissas handled here are below `2^53`).
* Machine integers are `ℕ`; Python's `//` on nonnegative integers is `Nat.div`.
* `datetime.date()` keys are abstracted to UTC day numbers `t / 86400`;
  none of the verified properties depend on the concrete day function.
* The remote node (`self.w3.eth`) is a pure table `ts : ℕ → ℕ` giving each
  block's timestamp, plus a per-iteration oracle feeding `get_logs` results:
  `some logs` for a successful fetch-and-process iteration and `none` for an
  iteration in which fetching or processing raises (the `except` path of
  `get_token_metrics`).  Side effects (CSV appends, `progress.txt` writes,
  `time.sleep`) are recorded as an explicit event trace; sleep durations are
  recorded in milliseconds.
-/

set_option maxRecDepth 8000

/-! ## IEEE-754 binary64 model -/

/-- Fuel-driven base-2 logarithm on `ℕ` (floor).  Exact for `n < 2^fuel`. -/
def log2fuel : ℕ → ℕ → ℕ
  | 0, _ => 0
  | f+1, n => if 2 ≤ n then log2fuel f (n/2) + 1 else 0

/-- Floor base-2 logarithm, exact below `2^300`. -/
def natLog2 (n : ℕ) : ℕ := log2fuel 300 n

/-- Round `num / den` to the nearest natural number, ties to even. -/
def rnHalfEven (num den : ℕ) : ℕ :=
  let q := num / den
  let r := num % den
  if 2*r < den then q else if den < 2*r then q + 1 else (if q % 2 = 0 then q else q + 1)

/-- A binary64 value: the exact dyadic rational `m * 2^e`.  The rounding
operations below always return `m = 0` or `2^52 ≤ |m| < 2^53`, the unique
IEEE normal form, so structural equality of results is value equality. -/
structure Fl where
  m : ℤ
  e : ℤ
deriving DecidableEq, Repr

/-- The exact rational value of a binary64. -/
def toRat (x : Fl) : ℚ := (x.m : ℚ) * (2:ℚ)^x.e

/-- Negation of a binary64 (exact in IEEE-754). -/
def Fl.neg (x : Fl) : Fl := ⟨-x.m, x.e⟩

/-- Correctly rounded binary64 representation of `a * 2^d` for `a ≥ 1`:
normalise the mantissa to 53 bits, rounding half-to-even if `a` is wider. -/
def roundPosDyadic (a : ℕ) (d : ℤ) : Fl :=
  let L := natLog2 a
  if L ≤ 52 then ⟨(a : ℤ) * 2^(52 - L), d - (52 - L)⟩
  else
    let k := L - 52
    let m := rnHalfEven a (2^k)
    if m = 2^53 then ⟨2^52, d + k + 1⟩ else ⟨(m:ℤ), d + k⟩

/-- Decide `2^e * b ≤ a` for `b > 0` (an exponent-shifted comparison). -/
def le2z (b : ℕ) (e : ℤ) (a : ℕ) : Bool :=
  if 0 ≤ e then b * 2^e.toNat ≤ a else b ≤ a * 2^(-e).toNat

/-- `⌊log₂ (a/b)⌋` for `a b ≥ 1`, via `natLog2` and one correction step. -/
def ratFloorLog2 (a b : ℕ) : ℤ :=
  let e0 : ℤ := (natLog2 a : ℤ) - (natLog2 b : ℤ)
  if le2z b e0 a then e0 else e0 - 1

/-- Correctly rounded binary64 representation of `(a / b) * 2^d`, `a b ≥ 1`. -/
def roundPosRat (a b : ℕ) (d : ℤ) : Fl :=
  let E := ratFloorLog2 a b
  let m := if E ≤ 52 then rnHalfEven (a * 2^(52 - E).toNat) b
           else rnHalfEven a (b * 2^(E - 52).toNat)
  if m = 2^53 then ⟨2^52, d + E + 1 - 52⟩ else ⟨(m:ℤ), d + E - 52⟩

/-- Correctly rounded binary64 of a signed `a * 2^d`. -/
def signRoundDyadic (a : ℤ) (d : ℤ) : Fl :=
  if a = 0 then ⟨0, 0⟩
  else if 0 < a then roundPosDyadic a.natAbs d
  else Fl.neg (roundPosDyadic a.natAbs d)

/-- CPython `float(n)` for a nonnegative `int` (correctly rounded conversion). -/
def Fl.ofNat (n : ℕ) : Fl := if n = 0 then ⟨0, 0⟩ else roundPosDyadic n 0

/-- CPython binary64 `+`: the exact sum, correctly rounded. -/
def Fl.add (x y : Fl) : Fl :=
  let d := min x.e y.e
  signRoundDyadic (x.m * 2^(x.e - d).toNat + y.m * 2^(y.e - d).toNat) d

/-- CPython binary64 `/`: the exact quotient, correctly rounded.
Only ever used here with the nonzero divisor `1e18`. -/
def Fl.div (x y : Fl) : Fl :=
  if x.m = 0 ∨ y.m = 0 then ⟨0, 0⟩
  else if (0 < x.m ∧ 0 < y.m) ∨ (x.m < 0 ∧ y.m < 0) then
    roundPosRat x.m.natAbs y.m.natAbs (x.e - y.e)
  else Fl.neg (roundPosRat x.m.natAbs y.m.natAbs (x.e - y.e))

/-! ## Data model (`RawLog`, decoding, daily aggregation) -/

/-- A raw event log as delivered by `get_logs`: block number, the list of
32-byte topic words (each modelled by its numeric value), and the payload
bytes.  Corresponds to the `event` records of `wigo_rpc_v003.py`. -/
structure RawLog where
  blockNumber : ℕ
  topics : List ℕ
  data : List ℕ
deriving DecidableEq, Repr

/-- Big-endian unsigned integer value of a byte string:
`int(data.hex(), 16)`. -/
def beNat (ds : List ℕ) : ℕ := ds.foldl (fun acc b => acc * 256 + b) 0

/-- A decoded transfer: `decode_transfer_event`'s result dict.  Addresses are
the low 20 bytes of topic words (`hex()[-40:]` = value mod `2^160`); `value`
is a Python float (`value / 1e18`). -/
structure Transfer where
  from_address : ℕ
  to_address : ℕ
  value : Fl
deriving DecidableEq, Repr

/-- `decode_transfer_event` (lines 97-111).  The `try` block succeeds iff the
topic list has an entry at index 2 (i.e. at least 3 topics; `topics[1]` and
`topics[2]` otherwise raise `IndexError`) and the payload is nonempty
(`int('0x', 16)` raises `ValueError`); any such exception is caught and
`None` is returned.  `value / 1e18` is binary64 arithmetic: the `int` is
converted to binary64, then divided by the (exactly representable)
binary64 `1e18`. -/
def decode_transfer_event (l : RawLog) : Option Transfer :=
  if 3 ≤ l.topics.length ∧ l.data ≠ [] then
    some ⟨l.topics.getD 1 0 % 2^160, l.topics.getD 2 0 % 2^160,
          Fl.div (Fl.ofNat (beNat l.data)) (Fl.ofNat (10^18))⟩
  else none

/-- Calendar-day key of a block timestamp (`datetime.fromtimestamp(..).date()`,
abstracted to UTC day numbers). -/
def dateOf (t : ℕ) : ℕ := t / 86400

/-- One day's metrics: the `defaultdict` value of `get_token_metrics`
(lines 217-223). -/
structure DailyAgg where
  transactions : ℕ
  active_addresses : Finset ℕ
  volume : Fl
  senders : Finset ℕ
  receivers : Finset ℕ
deriving DecidableEq

/-- The `defaultdict` default: zero counters, empty sets, integer `0` volume
(Python promotes it to float on the first `+=`; binary64 `0 + x` is exact). -/
def emptyAgg : DailyAgg := ⟨0, ∅, ⟨0, 0⟩, ∅, ∅⟩

/-- The per-event mutation of one day's metrics (lines 240-246). -/
def updAgg (t : Transfer) (a : DailyAgg) : DailyAgg :=
  { transactions := a.transactions + 1
    active_addresses := insert t.to_address (insert t.from_address a.active_addresses)
    volume := Fl.add a.volume t.value
    senders := insert t.from_address a.senders
    receivers := insert t.to_address a.receivers }

/-- `chunk_metrics`: an insertion-ordered dictionary from day keys to
`DailyAgg` (Python dicts preserve insertion order, which `append_chunk_data`
iterates). -/
abbrev AggMap := List (ℕ × DailyAgg)

/-- Get-or-create update of the dictionary at key `d` (the `defaultdict`
access `chunk_metrics[date_key]` followed by mutation). -/
def aupd : AggMap → ℕ → (DailyAgg → DailyAgg) → AggMap
  | [], d, f => [(d, f emptyAgg)]
  | (k, v) :: r, d, f => if k = d then (k, f v) :: r else (k, v) :: aupd r d f

/-- Lookup with the `defaultdict` default. -/
def afind : AggMap → ℕ → DailyAgg
  | [], _ => emptyAgg
  | (k, v) :: r, d => if k = d then v else afind r d

/-- Observe one decoded transfer under its day key. -/
def observe (m : AggMap) (d : ℕ) (t : Transfer) : AggMap := aupd m d (updAgg t)

/-- Process one raw log (lines 234-246): fetch the block timestamp, decode,
and if decoding succeeded, update that day's aggregate; a log that fails to
decode is skipped. -/
def processEvent (ts : ℕ → ℕ) (m : AggMap) (ev : RawLog) : AggMap :=
  match decode_transfer_event ev with
  | some t => observe m (dateOf (ts ev.blockNumber)) t
  | none => m

/-- Process a list of raw logs in order. -/
def processEvents (ts : ℕ → ℕ) (m : AggMap) (l : List RawLog) : AggMap :=
  l.foldl (processEvent ts) m

/-- The chunk aggregate built by one loop iteration, starting from the fresh
empty `defaultdict` created at line 217. -/
def chunk_metrics (ts : ℕ → ℕ) (l : List RawLog) : AggMap := processEvents ts [] l

/-- One CSV row written by `append_chunk_data` (lines 180-188). -/
structure SinkRow where
  date : ℕ
  transactions : ℕ
  active_addresses : ℕ
  volume : Fl
  unique_senders : ℕ
  unique_receivers : ℕ
deriving DecidableEq

/-- The rows `append_chunk_data` appends for a chunk (empty input appends
nothing: `if not chunk_metrics: return`). -/
def csvRows (m : AggMap) : List SinkRow :=
  m.map (fun p => ⟨p.1, p.2.transactions, p.2.active_addresses.card, p.2.volume,
                   p.2.senders.card, p.2.receivers.card⟩)

/-! ## `find_block_by_timestamp` (lines 76-95) -/

/-- The binary-search loop of `find_block_by_timestamp`, on a failure-free
chain table `ts`.  `left` starts at 1 and never decreases, so the Python
value is tracked exactly by `ℕ` arithmetic; the invariant `1 ≤ left` is
carried as an argument to justify `mid - 1`. -/
def fbbt_aux (ts : ℕ → ℕ) (height target left right : ℕ) (h : 1 ≤ left) : ℕ :=
  if hlr : left ≤ right then
    let mid := (left + right) / 2
    if ts mid = target then mid
    else if ts mid < target then fbbt_aux ts height target (mid+1) right (by omega)
    else fbbt_aux ts height target left (mid - 1) h
  else if left ≤ height then left else right
termination_by right + 1 - left
decreasing_by all_goals omega

/-- `find_block_by_timestamp(target)`: binary search over `[1, height]`,
returning `left if left <= height else right` on exhaustion. -/
def find_block_by_timestamp (ts : ℕ → ℕ) (height target : ℕ) : ℕ :=
  fbbt_aux ts height target 1 height (le_refl 1)

/-! ## The scan loop of `get_token_metrics` (lines 194-267) -/

/-- Observable effects of the loop: a `get_logs` attempt over a block window,
a CSV append (`append_chunk_data`), a `progress.txt` write (its three
fields), and a `time.sleep` (milliseconds). -/
inductive Ev where
  | fetchAttempt (fromB toB : ℕ)
  | flush (fromB toB : ℕ) (rows : List SinkRow)
  | checkpoint (startB endB lastProcessed : ℕ)
  | sleep (ms : ℕ)
deriving DecidableEq

/-- Loop state: `current_block` and `chunk_size` locals, plus the persisted
state (`progress.txt` contents and the CSV rows appended so far). -/
structure LoopState where
  current_block : ℕ
  chunk_size : ℕ
  progress : ℕ × ℕ × ℕ
  sink : List SinkRow
deriving DecidableEq

/-- One iteration of the `while current_block < end_block` loop body.
`fetched = some evs` is an iteration whose `try` block runs to completion
with `get_logs` returning `evs`; `fetched = none` is an iteration in which
fetching or processing raises, reaching the `except` handler (line 258):
halve `chunk_size`, and if it fell below 100, `break` (the `Bool` result);
otherwise sleep 2 s and retry with the same `current_block`. -/
def stepIter (ts : ℕ → ℕ) (end_block : ℕ) (st : LoopState)
    (fetched : Option (List RawLog)) : LoopState × List Ev × Bool :=
  let chunk_end := min (st.current_block + st.chunk_size) end_block
  match fetched with
  | some evs =>
    let cm := chunk_metrics ts evs
    let rows := csvRows cm
    (⟨chunk_end + 1, st.chunk_size, (st.current_block, end_block, chunk_end),
      st.sink ++ rows⟩,
     Ev.fetchAttempt st.current_block chunk_end ::
       ((if rows = [] then [] else [Ev.flush st.current_block chunk_end rows]) ++
        [Ev.checkpoint st.current_block end_block chunk_end, Ev.sleep 500]),
     false)
  | none =>
    let cs := st.chunk_size / 2
    if cs < 100 then
      (⟨st.current_block, cs, st.progress, st.sink⟩,
       [Ev.fetchAttempt st.current_block chunk_end], true)
    else
      (⟨st.current_block, cs, st.progress, st.sink⟩,
       [Ev.fetchAttempt st.current_block chunk_end, Ev.sleep 2000], false)

/-- The `while current_block < end_block` loop, driven by one oracle entry
per iteration.  An exhausted oracle stops the model with the loop condition
still true (no further remote behaviour is modelled). -/
def runFrom (ts : ℕ → ℕ) (end_block : ℕ) :
    List (Option (List RawLog)) → LoopState → LoopState × List Ev
  | [], st => (st, [])
  | o :: rest, st =>
    if st.current_block < end_block then
      let r := stepIter ts end_block st o
      if r.2.2 then (r.1, r.2.1)
      else
        let r2 := runFrom ts end_block rest r.1
        (r2.1, r.2.1 ++ r2.2)
    else (st, [])

/-- `get_token_metrics(start_date, end_date, chunk_size)` (lines 194-267).
Block bounds are always derived from the dates by binary search; a `0`
result models the Python `None`/falsy check at line 201.  The initial
`progress.txt` write (lines 208-209) precedes the loop.  `saved_progress`
stands for any checkpoint left on disk by an earlier session: the source
never reads `progress.txt` (each run creates a fresh session directory in
`setup_directories`), so the parameter is unused.  Returns the CSV contents
(`None` if no row was ever appended) and the event trace. -/
def get_token_metrics (ts : ℕ → ℕ) (height : ℕ) (start_ts end_ts : ℕ)
    (chunk_size : ℕ) (saved_progress : Option (ℕ × ℕ × ℕ))
    (oracle : List (Option (List RawLog))) : Option (List SinkRow) × List Ev :=
  let current_block := find_block_by_timestamp ts height start_ts
  let end_block := find_block_by_timestamp ts height end_ts
  if current_block = 0 ∨ end_block = 0 then (none, [])
  else
    let st0 : LoopState := ⟨current_block, chunk_size,
                            (current_block, end_block, current_block), []⟩
    let r := runFrom ts end_block oracle st0
    ((if r.1.sink = [] then none else some r.1.sink),
     Ev.checkpoint current_block end_block current_block :: r.2)

/-! ## Failure-free chunk walk (the success path of the loop) -/

/-- The sequence of `(current_block, chunk_end)` windows fetched by a run in
which every iteration succeeds (constant `chunk_size`). -/
def chunkWalk (end_block cs c : ℕ) : List (ℕ × ℕ) :=
  if c < end_block then
    (c, min (c + cs) end_block) :: chunkWalk end_block cs (min (c + cs) end_block + 1)
  else []
termination_by end_block - c
decreasing_by all_goals omega

/-- The value of `current_block` when the failure-free loop exits. -/
def walkFinal (end_block cs c : ℕ) : ℕ :=
  if c < end_block then walkFinal end_block cs (min (c + cs) end_block + 1) else c
termination_by end_block - c
decreasing_by all_goals omega

/-! ## Trace projections -/

/-- Persisted-state marks in a trace: `(false, chunkEnd)` for a CSV flush,
`(true, lastProcessed)` for a `progress.txt` write. -/
def evMark : Ev → Option (Bool × ℕ)
  | Ev.flush _ toB _ => some (false, toB)
  | Ev.checkpoint _ _ l => some (true, l)
  | _ => none

/-- All persisted-state marks of a trace, in order. -/
def marksOf (tr : List Ev) : List (Bool × ℕ) := tr.filterMap evMark

/-- `marksOkB b ms`: every flush is immediately followed by the checkpoint
of the same chunk end, and the marked block numbers never drop below the
running lower bound `b` (hence never move backwards). -/
def marksOkB : ℕ → List (Bool × ℕ) → Bool
  | _, [] => true
  | b, (true, e) :: r => decide (b ≤ e) && marksOkB (e+1) r
  | b, (false, e) :: (true, e') :: r => decide (e' = e) && decide (b ≤ e) && marksOkB (e+1) r
  | _, (false, _) :: _ => false

/-- Sleep durations (ms) of a trace, in order. -/
def sleepsOf (tr : List Ev) : List ℕ :=
  tr.filterMap (fun ev => match ev with | Ev.sleep n => some n | _ => none)

/-- `get_logs` windows attempted by a trace, in order. -/
def fetchesOf (tr : List Ev) : List (ℕ × ℕ) :=
  tr.filterMap (fun ev => match ev with | Ev.fetchAttempt a b => some (a, b) | _ => none)

/-- `last_processed` values written to `progress.txt`, in order. -/
def cpLastsOf (tr : List Ev) : List ℕ :=
  tr.filterMap (fun ev => match ev with | Ev.checkpoint _ _ l => some l | _ => none)

/-! ## Concrete fixtures for counterexamples and witnesses -/

/-- Little-endian byte expansion with fuel. -/
def leBytesF : ℕ → ℕ → List ℕ
  | 0, _ => []
  | f+1, n => if n = 0 then [] else n % 256 :: leBytesF f (n / 256)

/-- Big-endian byte string of a positive integer. -/
def beBytesOf (n : ℕ) : List ℕ := (leBytesF 64 n).reverse

/-- A synthetic chain table: block `n` has timestamp `100 * n`. -/
def exTs (n : ℕ) : ℕ := 100 * n

/-- A well-formed transfer log carrying base-unit amount `v` at block 1. -/
def exLogOfValue (v : ℕ) : RawLog := ⟨1, [0, 11, 22], beBytesOf v⟩

/-- Does this log decode successfully and fall on day `d`?  (The multiset of
such logs determines a day's transaction count.) -/
def eventForDate (ts : ℕ → ℕ) (d : ℕ) (ev : RawLog) : Bool :=
  (decode_transfer_event ev).isSome && decide (dateOf (ts ev.blockNumber) = d)

/-- The sender contributed by a log to day `d`, if any. -/
def eventSender (ts : ℕ → ℕ) (d : ℕ) (ev : RawLog) : Option ℕ :=
  match decode_transfer_event ev with
  | some t => if dateOf (ts ev.blockNumber) = d then some t.from_address else none
  | none => none

/-- The receiver contributed by a log to day `d`, if any. -/
def eventReceiver (ts : ℕ → ℕ) (d : ℕ) (ev : RawLog) : Option ℕ :=
  match decode_transfer_event ev with
  | some t => if dateOf (ts ev.blockNumber) = d then some t.to_address else none
  | none => none

/-- The checkpoint marks of a mark list (drops flush marks). -/
def trueMarks (ms : List (Bool × ℕ)) : List ℕ :=
  ms.filterMap (fun p => if p.1 then some p.2 else none)

/-! ## Claim theorems -/

/-- Claim C10: a failed fetch attempt is atomic - it leaves the progress
triple, the CSV sink and `current_block` unchanged and writes neither a
flush nor a checkpoint mark; conversely every successful attempt appends
exactly the chunk's aggregated rows to the CSV sink. -/
theorem c10_failed_attempt_atomic (ts : ℕ → ℕ) (end_block : ℕ) (st : LoopState) :
    (stepIter ts end_block st none).1.progress = st.progress ∧
    (stepIter ts end_block st none).1.sink = st.sink ∧
    (stepIter ts end_block st none).1.current_block = st.current_block ∧
    marksOf (stepIter ts end_block st none).2.1 = [] ∧
    ∀ evs, (stepIter ts end_block st (some evs)).1.sink =
      st.sink ++ csvRows (chunk_metrics ts evs) := by
  refine ⟨?_, ?_, ?_, ?_, ?_⟩ <;> simp only [stepIter]
  · split <;> rfl
  · split <;> rfl
  · split <;> rfl
  · split <;> simp [marksOf, evMark]
  · intro evs; trivial

/-- Claim C7 (amended): on a fetch failure the chunk size is halved with
integer floor division (`chunk_size // 2`), the same window is retried
(`current_block` is unchanged), the loop aborts exactly when the halved
chunk size drops below 100, the retry delay is a constant 2 s (never an
increasing backoff), and the chunk size never grows on any step. -/
theorem c7_amended_backoff (ts : ℕ → ℕ) (end_block : ℕ) (st : LoopState) :
    (stepIter ts end_block st none).1.chunk_size = st.chunk_size / 2 ∧
    (stepIter ts end_block st none).1.current_block = st.current_block ∧
    ((stepIter ts end_block st none).2.2 = true ↔ st.chunk_size / 2 < 100) ∧
    (¬ st.chunk_size / 2 < 100 →
      (stepIter ts end_block st none).2.1 =
        [Ev.fetchAttempt st.current_block (min (st.current_block + st.chunk_size) end_block),
         Ev.sleep 2000]) ∧
    (st.chunk_size / 2 < 100 →
      (stepIter ts end_block st none).2.1 =
        [Ev.fetchAttempt st.current_block (min (st.current_block + st.chunk_size) end_block)]) ∧
    min (st.current_block + st.chunk_size / 2) end_block ≤
      min (st.current_block + st.chunk_size) end_block ∧
    (∀ o, (stepIter ts end_block st o).1.chunk_size ≤ st.chunk_size) := by
  refine ⟨?_, ?_, ?_, ?_, ?_, ?_, ?_⟩
  · simp only [stepIter]; split <;> rfl
  · simp only [stepIter]; split <;> rfl
  · simp only [stepIter]; split <;> simp_all
  · intro h; simp only [stepIter]; split <;> simp_all
  · intro h; simp only [stepIter]; split <;> simp_all
  · have := Nat.div_le_self st.chunk_size 2; omega
  · intro o; cases o <;> simp only [stepIter]
    · split <;> simp <;> omega
    · simp

/-- Claim C7 counterexample: two consecutive failures both sleep exactly
2000 ms, so the delay sequence is not strictly increasing - refuting
"an increasing delay before retrying". -/
theorem c7_counterexample :
    sleepsOf (runFrom (fun _ => 0) 50 [none, none] ⟨1, 1000, (1, 50, 1), []⟩).2 =
      [2000, 2000] ∧
    ¬ List.Chain' (· < ·)
      (sleepsOf (runFrom (fun _ => 0) 50 [none, none] ⟨1, 1000, (1, 50, 1), []⟩).2) := by
  have h : sleepsOf (runFrom (fun _ => 0) 50 [none, none] ⟨1, 1000, (1, 50, 1), []⟩).2 =
      [2000, 2000] := by decide
  refine ⟨h, ?_⟩
  rw [h]
  simp [List.chain'_cons]

/-- Claim C6 (amended): decoding succeeds exactly when the log has at least
3 topics (not exactly 3) and non-empty data; a log that fails to decode is
skipped without affecting the day's aggregates, and no decode failure ever
aborts the chunk (the step's abort flag stays false on any successful
fetch). -/
theorem c6_amended_decode (l : RawLog) :
    ((decode_transfer_event l).isSome ↔ 3 ≤ l.topics.length ∧ l.data ≠ []) ∧
    (decode_transfer_event l = none → ∀ ts m, processEvent ts m l = m) ∧
    (∀ ts end_block st evs, (stepIter ts end_block st (some evs)).2.2 = false) := by
  refine ⟨?_, ?_, ?_⟩
  · rw [decode_transfer_event]; split <;> simp_all
  · intro h ts m; simp [processEvent, h]
  · intro ts eB st evs; rfl

/-- Claim C6 counterexample: a log with four topics decodes successfully,
refuting "exactly three topics are required". -/
theorem c6_counterexample :
    (decode_transfer_event ⟨1, [0, 11, 22, 33], [1]⟩).isSome = true ∧
    (⟨1, [0, 11, 22, 33], [1]⟩ : RawLog).topics.length ≠ 3 := by
  refine ⟨?_, by decide⟩
  rw [decode_transfer_event]
  norm_num

/-- Claim C2 counterexample: a transfer of 1 base unit decodes, but the
stored binary64 value of `1 / 1e18` is not the exact rational `1 / 10^18`
(the quotient is rounded to 53 bits of mantissa), refuting "the stored
amount equals value divided by 10^18". -/
theorem c2_counterexample :
    (decode_transfer_event ⟨1, [0, 11, 22], [1]⟩).isSome = true ∧
    Option.map (fun t => toRat t.value) (decode_transfer_event ⟨1, [0, 11, 22], [1]⟩) ≠
      some ((1 : ℚ) / 10^18) := by
  have h : decode_transfer_event ⟨1, [0, 11, 22], [1]⟩ =
      some ⟨11, 22, ⟨5192296858534828, -112⟩⟩ := by decide
  rw [h]
  refine ⟨rfl, ?_⟩
  have h2 : toRat ⟨(5192296858534828 : ℤ), (-112 : ℤ)⟩ * 2^112 = 5192296858534828 := by
    rw [toRat, mul_assoc, ← zpow_natCast (2:ℚ) 112,
        ← zpow_add₀ (by norm_num : (2:ℚ) ≠ 0)]
    norm_num
  intro hEq
  simp only [Option.map_some', Option.some.injEq] at hEq
  have h3 : (1 / 10^18 : ℚ) * 2^112 = 5192296858534828 := by rw [← hEq]; exact h2
  rw [div_mul_eq_mul_div, one_mul, div_eq_iff (by norm_num : ((10:ℚ)^18) ≠ 0)] at h3
  norm_num at h3

/-- Claim C5 counterexample: two orderings of the same multiset of logs
produce different daily volumes, because the volume is a binary64 running
sum and absorption (`2^53 + 1 ≠ 2^53` at the stored precision) makes float
addition order-dependent - refuting order-independence of the full daily
aggregate. -/
theorem c5_counterexample :
    List.Perm
      [exLogOfValue (2^53 * 10^18), exLogOfValue (10^18), exLogOfValue (10^18)]
      [exLogOfValue (10^18), exLogOfValue (10^18), exLogOfValue (2^53 * 10^18)] ∧
    (afind (chunk_metrics (fun _ => 0)
        [exLogOfValue (2^53 * 10^18), exLogOfValue (10^18), exLogOfValue (10^18)]) 0).volume ≠
    (afind (chunk_metrics (fun _ => 0)
        [exLogOfValue (10^18), exLogOfValue (10^18), exLogOfValue (2^53 * 10^18)]) 0).volume := by
  constructor
  · decide
  · decide

/-- Claim C3 counterexample: with `start = 1`, `end_block = 6` and chunk
size 4, the walk fetches only the window `(1, 5)`: block 6 (`end_block`
itself) is never fetched, because after `current_block = chunk_end + 1 = 6`
the guard `current_block < end_block` fails - so coverage of the full
closed range `[start, end]` is refuted, and the loop exits at `≥`, not
`>`. -/
theorem c3_counterexample :
    chunkWalk 6 4 1 = [(1, 5)] ∧
    (¬ ∃ p ∈ chunkWalk 6 4 1, p.1 ≤ 6 ∧ 6 ≤ p.2) ∧
    walkFinal 6 4 1 = 6 ∧ ¬ (6 : ℕ) > 6 := by
  have h1 : chunkWalk 6 4 1 = [(1, 5)] := by
    rw [chunkWalk]; norm_num
    rw [chunkWalk]; norm_num
  have h2 : walkFinal 6 4 1 = 6 := by
    rw [walkFinal]; norm_num
    rw [walkFinal]; norm_num
  refine ⟨h1, ?_, h2, by omega⟩
  rw [h1]; decide

/-! ## Chunk-walk lemmas (claim C3) -/

theorem walkFinal_stop (end_block cs c : ℕ) (h : ¬ c < end_block) :
    walkFinal end_block cs c = c := by
  rw [walkFinal]; simp [h]

theorem walkFinal_ge_aux (end_block cs : ℕ) :
    ∀ n c, end_block - c ≤ n → c ≤ walkFinal end_block cs c := by
  intro n
  induction n with
  | zero =>
    intro c hc
    rw [walkFinal_stop end_block cs c (by omega)]
  | succ n ih =>
    intro c hc
    rw [walkFinal]
    by_cases h : c < end_block
    · simp only [if_pos h]
      have h2 := ih (min (c + cs) end_block + 1) (by omega)
      omega
    · simp [h]

theorem walkFinal_ge (end_block cs c : ℕ) : c ≤ walkFinal end_block cs c :=
  walkFinal_ge_aux end_block cs (end_block - c) c (le_refl _)

theorem walkFinal_bounds_aux (end_block cs : ℕ) :
    ∀ n c, end_block - c ≤ n → c < end_block →
      end_block ≤ walkFinal end_block cs c ∧ walkFinal end_block cs c ≤ end_block + 1 := by
  intro n
  induction n with
  | zero => intro c hc h; omega
  | succ n ih =>
    intro c hc h
    rw [walkFinal]
    simp only [if_pos h]
    by_cases h2 : min (c + cs) end_block + 1 < end_block
    · exact ih (min (c + cs) end_block + 1) (by omega) h2
    · rw [walkFinal_stop end_block cs _ h2]
      omega

theorem walkFinal_bounds (end_block cs c : ℕ) (h : c < end_block) :
    end_block ≤ walkFinal end_block cs c ∧ walkFinal end_block cs c ≤ end_block + 1 :=
  walkFinal_bounds_aux end_block cs (end_block - c) c (le_refl _) h

theorem chunkWalk_stop (end_block cs c : ℕ) (h : ¬ c < end_block) :
    chunkWalk end_block cs c = [] := by
  rw [chunkWalk]; simp [h]

theorem chunkWalk_head_fst (end_block cs c : ℕ) (p : ℕ × ℕ) (l : List (ℕ × ℕ))
    (h : chunkWalk end_block cs c = p :: l) : p.1 = c := by
  rw [chunkWalk] at h
  by_cases hc : c < end_block
  · simp only [if_pos hc] at h
    cases h
    rfl
  · simp [hc] at h

theorem chunkWalk_chain_aux (end_block cs : ℕ) :
    ∀ n c, end_block - c ≤ n →
      List.Chain' (fun p q : ℕ × ℕ => q.1 = p.2 + 1) (chunkWalk end_block cs c) := by
  intro n
  induction n with
  | zero =>
    intro c hc
    rw [chunkWalk_stop end_block cs c (by omega)]
    exact List.chain'_nil
  | succ n ih =>
    intro c hc
    rw [chunkWalk]
    by_cases h : c < end_block
    · simp only [if_pos h]
      rw [List.chain'_cons']
      refine ⟨?_, ih _ (by omega)⟩
      intro q hq
      cases hcw : chunkWalk end_block cs (min (c + cs) end_block + 1) with
      | nil => rw [hcw] at hq; simp at hq
      | cons p l =>
        rw [hcw] at hq
        simp only [List.head?_cons, Option.mem_def, Option.some.injEq] at hq
        subst hq
        exact chunkWalk_head_fst end_block cs _ p l hcw
    · simp [h]

theorem chunkWalk_mem_aux (end_block cs : ℕ) :
    ∀ n c, end_block - c ≤ n → ∀ p ∈ chunkWalk end_block cs c,
      c ≤ p.1 ∧ p.1 ≤ p.2 ∧ p.2 ≤ end_block ∧ p.1 < end_block := by
  intro n
  induction n with
  | zero =>
    intro c hc p hp
    rw [chunkWalk_stop end_block cs c (by omega)] at hp
    simp at hp
  | succ n ih =>
    intro c hc p hp
    rw [chunkWalk] at hp
    by_cases h : c < end_block
    · simp only [if_pos h, List.mem_cons] at hp
      rcases hp with rfl | hp
      · show c ≤ c ∧ c ≤ min (c + cs) end_block ∧ min (c + cs) end_block ≤ end_block ∧
          c < end_block
        omega
      · have h2 := ih (min (c + cs) end_block + 1) (by omega) p hp
        omega
    · simp [h] at hp

theorem chunkWalk_countP_aux (end_block cs : ℕ) :
    ∀ n c, end_block - c ≤ n → ∀ b,
      (chunkWalk end_block cs c).countP (fun p => decide (p.1 ≤ b ∧ b ≤ p.2)) =
        if c ≤ b ∧ b < walkFinal end_block cs c then 1 else 0 := by
  intro n
  induction n with
  | zero =>
    intro c hc b
    rw [chunkWalk_stop end_block cs c (by omega),
        walkFinal_stop end_block cs c (by omega)]
    simp only [List.countP_nil]
    split_ifs with h
    · omega
    · rfl
  | succ n ih =>
    intro c hc b
    rw [chunkWalk, walkFinal]
    by_cases h : c < end_block
    · simp only [if_pos h, List.countP_cons]
      rw [ih (min (c + cs) end_block + 1) (by omega) b]
      have hF := walkFinal_ge end_block cs (min (c + cs) end_block + 1)
      simp only [decide_eq_true_eq]
      split_ifs <;> omega
    · simp only [if_neg h, List.countP_nil]
      split_ifs with hcb
      · omega
      · rfl

/-! ### Trace projection helper lemmas -/

theorem fetchesOf_nil : fetchesOf [] = [] := rfl

theorem fetchesOf_append (a b : List Ev) :
    fetchesOf (a ++ b) = fetchesOf a ++ fetchesOf b := by
  simp [fetchesOf]

theorem fetchesOf_cons_fetch (x y : ℕ) (tr : List Ev) :
    fetchesOf (Ev.fetchAttempt x y :: tr) = (x, y) :: fetchesOf tr := by
  simp [fetchesOf]

theorem fetchesOf_cons_flush (x y : ℕ) (rows : List SinkRow) (tr : List Ev) :
    fetchesOf (Ev.flush x y rows :: tr) = fetchesOf tr := by
  simp [fetchesOf]

theorem fetchesOf_cons_checkpoint (x y z : ℕ) (tr : List Ev) :
    fetchesOf (Ev.checkpoint x y z :: tr) = fetchesOf tr := by
  simp [fetchesOf]

theorem fetchesOf_cons_sleep (n : ℕ) (tr : List Ev) :
    fetchesOf (Ev.sleep n :: tr) = fetchesOf tr := by
  simp [fetchesOf]

theorem fetchesOf_if_flush (P : Prop) [Decidable P] (x y : ℕ) (rows : List SinkRow) :
    fetchesOf (if P then ([] : List Ev) else [Ev.flush x y rows]) = [] := by
  split <;> simp [fetchesOf]

theorem marksOf_nil : marksOf [] = [] := rfl

theorem marksOf_append (a b : List Ev) :
    marksOf (a ++ b) = marksOf a ++ marksOf b := by
  simp [marksOf]

theorem marksOf_cons_fetch (x y : ℕ) (tr : List Ev) :
    marksOf (Ev.fetchAttempt x y :: tr) = marksOf tr := by
  simp [marksOf, evMark]

theorem marksOf_cons_flush (x y : ℕ) (rows : List SinkRow) (tr : List Ev) :
    marksOf (Ev.flush x y rows :: tr) = (false, y) :: marksOf tr := by
  simp [marksOf, evMark]

theorem marksOf_cons_checkpoint (x y z : ℕ) (tr : List Ev) :
    marksOf (Ev.checkpoint x y z :: tr) = (true, z) :: marksOf tr := by
  simp [marksOf, evMark]

theorem marksOf_cons_sleep (n : ℕ) (tr : List Ev) :
    marksOf (Ev.sleep n :: tr) = marksOf tr := by
  simp [marksOf, evMark]

theorem sleepsOf_append (a b : List Ev) :
    sleepsOf (a ++ b) = sleepsOf a ++ sleepsOf b := by
  simp [sleepsOf]

theorem cpLastsOf_append (a b : List Ev) :
    cpLastsOf (a ++ b) = cpLastsOf a ++ cpLastsOf b := by
  simp [cpLastsOf]

theorem runFrom_success_fetches (ts : ℕ → ℕ) (end_block : ℕ) :
    ∀ (oracle : List (Option (List RawLog))) (st : LoopState),
      (∀ o ∈ oracle, o ≠ none) → end_block ≤ st.current_block + oracle.length →
      fetchesOf (runFrom ts end_block oracle st).2 =
        chunkWalk end_block st.chunk_size st.current_block ∧
      (runFrom ts end_block oracle st).1.current_block =
        walkFinal end_block st.chunk_size st.current_block := by
  intro oracle
  induction oracle with
  | nil =>
    intro st hall hlen
    have h : ¬ st.current_block < end_block := by
      simp only [List.length_nil] at hlen; omega
    rw [chunkWalk_stop end_block _ _ h, walkFinal_stop end_block _ _ h]
    exact ⟨rfl, rfl⟩
  | cons o rest ih =>
    intro st hall hlen
    by_cases h : st.current_block < end_block
    · have ho : o ≠ none := hall o (by simp)
      obtain ⟨evs, rfl⟩ : ∃ evs, o = some evs := by
        cases o with
        | none => exact absurd rfl ho
        | some evs => exact ⟨evs, rfl⟩
      have hrest : ∀ o ∈ rest, o ≠ none := fun o hmem => hall o (by simp [hmem])
      have hlen2 : end_block ≤ min (st.current_block + st.chunk_size) end_block + 1 +
          rest.length := by
        simp only [List.length_cons] at hlen; omega
      have hih := ih ⟨min (st.current_block + st.chunk_size) end_block + 1, st.chunk_size,
                  (st.current_block, end_block, min (st.current_block + st.chunk_size) end_block),
                  st.sink ++ csvRows (chunk_metrics ts evs)⟩ hrest hlen2
      rw [runFrom]
      simp only [if_pos h, stepIter, Bool.false_eq_true, if_false]
      constructor
      · simp only [List.cons_append, List.append_assoc, fetchesOf_cons_fetch,
          fetchesOf_append, fetchesOf_if_flush, fetchesOf_cons_checkpoint,
          fetchesOf_cons_sleep, fetchesOf_nil, List.nil_append]
        rw [hih.1]
        conv_rhs => rw [chunkWalk]
        simp [if_pos h]
      · conv_rhs => rw [walkFinal]
        rw [if_pos h]
        simpa using hih.2
    · rw [runFrom]
      simp only [if_neg h]
      rw [chunkWalk_stop end_block _ _ h, walkFinal_stop end_block _ _ h]
      exact ⟨rfl, rfl⟩

/-- Claim C3 (amended): in a failure-free run the fetched windows are exactly
`chunkWalk`; consecutive chunks are disjoint and adjacent
(`next.start = prev.end + 1`); every block `b` with
`start ≤ b < walkFinal` is fetched in exactly one chunk, and
`end_block ≤ walkFinal ≤ end_block + 1`, so every block in
`[start, end_block)` is fetched exactly once while block `end_block` itself
is fetched iff the loop's final `current_block` exceeds `end_block`
(the loop exits as soon as `current_block ≥ end_block`, not `>`). -/
theorem c3_amended_chunk_coverage (ts : ℕ → ℕ) (end_block : ℕ)
    (oracle : List (Option (List RawLog))) (st : LoopState)
    (hsucc : ∀ o ∈ oracle, o ≠ none)
    (hlen : end_block ≤ st.current_block + oracle.length) :
    fetchesOf (runFrom ts end_block oracle st).2 =
      chunkWalk end_block st.chunk_size st.current_block ∧
    List.Chain' (fun p q : ℕ × ℕ => q.1 = p.2 + 1)
      (chunkWalk end_block st.chunk_size st.current_block) ∧
    (∀ p ∈ chunkWalk end_block st.chunk_size st.current_block,
      st.current_block ≤ p.1 ∧ p.1 ≤ p.2 ∧ p.2 ≤ end_block) ∧
    (∀ b, (chunkWalk end_block st.chunk_size st.current_block).countP
        (fun p => decide (p.1 ≤ b ∧ b ≤ p.2)) =
      if st.current_block ≤ b ∧ b < walkFinal end_block st.chunk_size st.current_block
      then 1 else 0) ∧
    (runFrom ts end_block oracle st).1.current_block =
      walkFinal end_block st.chunk_size st.current_block ∧
    (st.current_block < end_block →
      end_block ≤ walkFinal end_block st.chunk_size st.current_block ∧
      walkFinal end_block st.chunk_size st.current_block ≤ end_block + 1) ∧
    (¬ st.current_block < end_block →
      chunkWalk end_block st.chunk_size st.current_block = [] ∧
      walkFinal end_block st.chunk_size st.current_block = st.current_block) := by
  have hb := runFrom_success_fetches ts end_block oracle st hsucc hlen
  refine ⟨hb.1, chunkWalk_chain_aux end_block st.chunk_size _ st.current_block (le_refl _),
    fun p hp => ?_,
    fun b => chunkWalk_countP_aux end_block st.chunk_size _ st.current_block (le_refl _) b,
    hb.2, fun h => walkFinal_bounds end_block st.chunk_size st.current_block h,
    fun h => ⟨chunkWalk_stop _ _ _ h, walkFinal_stop _ _ _ h⟩⟩
  have hm := chunkWalk_mem_aux end_block st.chunk_size (end_block - st.current_block)
    st.current_block (le_refl _) p hp
  exact ⟨hm.1, hm.2.1, hm.2.2.1⟩

/-! ## Aggregator-map lemmas (claims C5, C9) -/

theorem afind_aupd_self (m : AggMap) (d : ℕ) (f : DailyAgg → DailyAgg) :
    afind (aupd m d f) d = f (afind m d) := by
  induction m with
  | nil => simp [aupd, afind]
  | cons hd tl ih =>
    obtain ⟨k, v⟩ := hd
    by_cases h : k = d
    · subst h
      simp [aupd, afind]
    · simp [aupd, afind, h, ih]

theorem afind_aupd_ne (m : AggMap) (d d' : ℕ) (f : DailyAgg → DailyAgg) (h : d' ≠ d) :
    afind (aupd m d' f) d = afind m d := by
  induction m with
  | nil => simp [aupd, afind, h]
  | cons hd tl ih =>
    obtain ⟨k, v⟩ := hd
    by_cases hk : k = d'
    · subst hk
      simp [aupd, afind, h]
    · by_cases hkd : k = d <;> simp_all [aupd, afind]

theorem afind_processEvent (ts : ℕ → ℕ) (m : AggMap) (ev : RawLog) (d : ℕ) :
    afind (processEvent ts m ev) d = afind m d ∨
    ∃ t, decode_transfer_event ev = some t ∧ dateOf (ts ev.blockNumber) = d ∧
      afind (processEvent ts m ev) d = updAgg t (afind m d) := by
  cases hdec : decode_transfer_event ev with
  | none => left; simp [processEvent, hdec]
  | some t =>
    by_cases hd : dateOf (ts ev.blockNumber) = d
    · right
      refine ⟨t, rfl, hd, ?_⟩
      simp only [processEvent, hdec, observe]
      rw [hd, afind_aupd_self]
    · left
      simp only [processEvent, hdec, observe]
      exact afind_aupd_ne _ _ _ _ hd

/-! ## Sign lemmas for the float model (claim C9) -/

theorem log2fuel_le (f : ℕ) : ∀ n, 1 ≤ n → 2^(log2fuel f n) ≤ n := by
  induction f with
  | zero => intro n h; simpa [log2fuel] using h
  | succ f ih =>
    intro n h
    rw [log2fuel]
    by_cases h2 : 2 ≤ n
    · simp only [if_pos h2]
      rw [pow_succ]
      have ihh := ih (n/2) (by omega)
      omega
    · simp only [if_neg h2, pow_zero]
      omega

theorem rnHalfEven_ge (num den : ℕ) : num / den ≤ rnHalfEven num den := by
  simp only [rnHalfEven]
  split_ifs <;> omega

theorem rnHalfEven_le (num den : ℕ) : rnHalfEven num den ≤ num / den + 1 := by
  simp only [rnHalfEven]
  split_ifs <;> omega

theorem roundPosDyadic_m_pos (a : ℕ) (d : ℤ) (h : 1 ≤ a) : 0 < (roundPosDyadic a d).m := by
  rw [roundPosDyadic]
  by_cases hL : natLog2 a ≤ 52
  · simp only [if_pos hL]
    have ha : (0:ℤ) < (a:ℤ) := by exact_mod_cast h
    positivity
  · simp only [if_neg hL]
    split_ifs with hm
    · norm_num
    · have h1 : 2^(natLog2 a) ≤ a := log2fuel_le 300 a h
      have h2 : (2:ℕ)^(natLog2 a - 52) ≤ 2^(natLog2 a) :=
        Nat.pow_le_pow_right (by norm_num) (by omega)
      have h3 : 1 ≤ a / 2^(natLog2 a - 52) := by
        apply (Nat.one_le_div_iff (Nat.pos_pow_of_pos _ (by norm_num))).mpr
        omega
      have h4 := rnHalfEven_ge a (2^(natLog2 a - 52))
      have h5 : 1 ≤ rnHalfEven a (2^(natLog2 a - 52)) := by omega
      show (0:ℤ) < ((rnHalfEven a (2^(natLog2 a - 52)) : ℕ) : ℤ)
      exact_mod_cast h5

theorem signRoundDyadic_m_nonneg (a d : ℤ) (h : 0 ≤ a) : 0 ≤ (signRoundDyadic a d).m := by
  rw [signRoundDyadic]
  split_ifs with h0 hpos
  · simp
  · exact le_of_lt (roundPosDyadic_m_pos _ _ (Int.natAbs_pos.mpr h0))
  · omega

theorem Fl.add_m_nonneg (x y : Fl) (hx : 0 ≤ x.m) (hy : 0 ≤ y.m) : 0 ≤ (Fl.add x y).m := by
  rw [Fl.add]
  apply signRoundDyadic_m_nonneg
  have p1 : (0:ℤ) ≤ 2^(x.e - min x.e y.e).toNat := by positivity
  have p2 : (0:ℤ) ≤ 2^(y.e - min x.e y.e).toNat := by positivity
  exact add_nonneg (mul_nonneg hx p1) (mul_nonneg hy p2)

theorem Fl.ofNat_m_nonneg (n : ℕ) : 0 ≤ (Fl.ofNat n).m := by
  rw [Fl.ofNat]
  split_ifs with h
  · simp
  · exact le_of_lt (roundPosDyadic_m_pos _ _ (by omega))

theorem roundPosRat_m_nonneg (a b : ℕ) (d : ℤ) : 0 ≤ (roundPosRat a b d).m := by
  rw [roundPosRat]
  split_ifs <;> simp

theorem Fl.div_m_nonneg (x y : Fl) (hx : 0 ≤ x.m) (hy : 0 ≤ y.m) : 0 ≤ (Fl.div x y).m := by
  rw [Fl.div]
  split_ifs with h0 hsign
  · simp
  · exact roundPosRat_m_nonneg _ _ _
  · exfalso
    omega

theorem decode_value_m_nonneg (l : RawLog) (t : Transfer)
    (h : decode_transfer_event l = some t) : 0 ≤ t.value.m := by
  rw [decode_transfer_event] at h
  split_ifs at h with hc
  · cases h
    exact Fl.div_m_nonneg _ _ (Fl.ofNat_m_nonneg _) (Fl.ofNat_m_nonneg _)

theorem toRat_nonneg (x : Fl) (h : 0 ≤ x.m) : 0 ≤ toRat x := by
  rw [toRat]
  have h2 : (0:ℚ) < 2^x.e := by positivity
  exact mul_nonneg (by exact_mod_cast h) (le_of_lt h2)

/-! ## Aggregate invariants along a run (claim C9) -/

theorem processEvent_inv (ts : ℕ → ℕ) (m : AggMap) (ev : RawLog) (d : ℕ)
    (h : (afind m d).active_addresses = (afind m d).senders ∪ (afind m d).receivers ∧
         0 ≤ (afind m d).volume.m) :
    (afind (processEvent ts m ev) d).active_addresses =
      (afind (processEvent ts m ev) d).senders ∪ (afind (processEvent ts m ev) d).receivers ∧
    0 ≤ (afind (processEvent ts m ev) d).volume.m := by
  rcases afind_processEvent ts m ev d with heq | ⟨t, hdec, _, heq⟩
  · rw [heq]; exact h
  · rw [heq]
    constructor
    · simp only [updAgg]
      ext x
      simp only [Finset.mem_insert, Finset.mem_union, h.1]
      tauto
    · exact Fl.add_m_nonneg _ _ h.2 (decode_value_m_nonneg _ _ hdec)

theorem processEvents_inv (ts : ℕ → ℕ) :
    ∀ (l : List RawLog) (m : AggMap) (d : ℕ),
      ((afind m d).active_addresses = (afind m d).senders ∪ (afind m d).receivers ∧
       0 ≤ (afind m d).volume.m) →
      ((afind (processEvents ts m l) d).active_addresses =
         (afind (processEvents ts m l) d).senders ∪
           (afind (processEvents ts m l) d).receivers ∧
       0 ≤ (afind (processEvents ts m l) d).volume.m) := by
  intro l
  induction l with
  | nil => intro m d h; exact h
  | cons ev rest ih =>
    intro m d h
    exact ih (processEvent ts m ev) d (processEvent_inv ts m ev d h)

theorem processEvent_mono (ts : ℕ → ℕ) (m : AggMap) (ev : RawLog) (d : ℕ) :
    (afind m d).transactions ≤ (afind (processEvent ts m ev) d).transactions ∧
    (afind m d).active_addresses ⊆ (afind (processEvent ts m ev) d).active_addresses ∧
    (afind m d).senders ⊆ (afind (processEvent ts m ev) d).senders ∧
    (afind m d).receivers ⊆ (afind (processEvent ts m ev) d).receivers := by
  rcases afind_processEvent ts m ev d with heq | ⟨t, _, _, heq⟩
  · rw [heq]
    exact ⟨le_refl _, Finset.Subset.refl _, Finset.Subset.refl _, Finset.Subset.refl _⟩
  · rw [heq]
    refine ⟨Nat.le_succ _, ?_, Finset.subset_insert _ _, Finset.subset_insert _ _⟩
    exact (Finset.subset_insert _ _).trans (Finset.subset_insert _ _)

theorem processEvents_mono (ts : ℕ → ℕ) :
    ∀ (l : List RawLog) (m : AggMap) (d : ℕ),
      (afind m d).transactions ≤ (afind (processEvents ts m l) d).transactions ∧
      (afind m d).active_addresses ⊆ (afind (processEvents ts m l) d).active_addresses ∧
      (afind m d).senders ⊆ (afind (processEvents ts m l) d).senders ∧
      (afind m d).receivers ⊆ (afind (processEvents ts m l) d).receivers := by
  intro l
  induction l with
  | nil =>
    intro m d
    exact ⟨le_refl _, Finset.Subset.refl _, Finset.Subset.refl _, Finset.Subset.refl _⟩
  | cons ev rest ih =>
    intro m d
    have h1 := processEvent_mono ts m ev d
    have h2 := ih (processEvent ts m ev) d
    exact ⟨h1.1.trans h2.1, h1.2.1.trans h2.2.1, h1.2.2.1.trans h2.2.2.1,
           h1.2.2.2.trans h2.2.2.2⟩

/-- Claim C9: at every point of a chunk's aggregation (after any prefix `l₁`
of the decoded event stream, and after any further events `l₂`), every day's
aggregate satisfies `activeAddresses = senders ∪ receivers`, its volume is
nonnegative, and transaction count and set cardinalities never decrease as
more events are processed. -/
theorem c9_aggregate_invariants (ts : ℕ → ℕ) (l₁ l₂ : List RawLog) (d : ℕ) :
    (afind (chunk_metrics ts l₁) d).active_addresses =
      (afind (chunk_metrics ts l₁) d).senders ∪ (afind (chunk_metrics ts l₁) d).receivers ∧
    0 ≤ toRat (afind (chunk_metrics ts l₁) d).volume ∧
    (afind (chunk_metrics ts l₁) d).transactions ≤
      (afind (chunk_metrics ts (l₁ ++ l₂)) d).transactions ∧
    (afind (chunk_metrics ts l₁) d).active_addresses.card ≤
      (afind (chunk_metrics ts (l₁ ++ l₂)) d).active_addresses.card ∧
    (afind (chunk_metrics ts l₁) d).senders.card ≤
      (afind (chunk_metrics ts (l₁ ++ l₂)) d).senders.card ∧
    (afind (chunk_metrics ts l₁) d).receivers.card ≤
      (afind (chunk_metrics ts (l₁ ++ l₂)) d).receivers.card := by
  have hbase : (afind ([] : AggMap) d).active_addresses =
      (afind ([] : AggMap) d).senders ∪ (afind ([] : AggMap) d).receivers ∧
      0 ≤ (afind ([] : AggMap) d).volume.m := by
    simp [afind, emptyAgg]
  have hinv := processEvents_inv ts l₁ [] d hbase
  have happ : chunk_metrics ts (l₁ ++ l₂) = processEvents ts (chunk_metrics ts l₁) l₂ := by
    simp [chunk_metrics, processEvents, List.foldl_append]
  have hmono := processEvents_mono ts l₂ (chunk_metrics ts l₁) d
  rw [happ]
  exact ⟨hinv.1, toRat_nonneg _ hinv.2, hmono.1, Finset.card_le_card hmono.2.1,
         Finset.card_le_card hmono.2.2.1, Finset.card_le_card hmono.2.2.2⟩

/-! ## Order-independence of aggregation (claim C5) -/

theorem processEvents_transactions (ts : ℕ → ℕ) (d : ℕ) :
    ∀ (l : List RawLog) (m : AggMap),
      (afind (processEvents ts m l) d).transactions =
        (afind m d).transactions + l.countP (eventForDate ts d) := by
  intro l
  induction l with
  | nil => intro m; simp [processEvents]
  | cons ev rest ih =>
    intro m
    have hstep : processEvents ts m (ev :: rest) = processEvents ts (processEvent ts m ev) rest :=
      rfl
    rw [hstep, ih, List.countP_cons]
    cases hdec : decode_transfer_event ev with
    | none =>
      have h1 : processEvent ts m ev = m := by simp [processEvent, hdec]
      have h2 : eventForDate ts d ev = false := by simp [eventForDate, hdec]
      rw [h1, h2]
      simp
    | some t =>
      by_cases hd : dateOf (ts ev.blockNumber) = d
      · have h1 : afind (processEvent ts m ev) d = updAgg t (afind m d) := by
          simp only [processEvent, hdec, observe]
          rw [hd, afind_aupd_self]
        have h2 : eventForDate ts d ev = true := by simp [eventForDate, hdec, hd]
        rw [h1, h2]
        simp [updAgg]
        omega
      · have h1 : afind (processEvent ts m ev) d = afind m d := by
          simp only [processEvent, hdec, observe]
          exact afind_aupd_ne _ _ _ _ hd
        have h2 : eventForDate ts d ev = false := by simp [eventForDate, hdec, hd]
        rw [h1, h2]
        simp

theorem processEvents_senders (ts : ℕ → ℕ) (d : ℕ) :
    ∀ (l : List RawLog) (m : AggMap),
      (afind (processEvents ts m l) d).senders =
        (afind m d).senders ∪ (l.filterMap (eventSender ts d)).toFinset := by
  intro l
  induction l with
  | nil => intro m; simp [processEvents]
  | cons ev rest ih =>
    intro m
    have hstep : processEvents ts m (ev :: rest) = processEvents ts (processEvent ts m ev) rest :=
      rfl
    rw [hstep, ih, List.filterMap_cons]
    cases hdec : decode_transfer_event ev with
    | none =>
      have h1 : processEvent ts m ev = m := by simp [processEvent, hdec]
      have h2 : eventSender ts d ev = none := by simp [eventSender, hdec]
      rw [h1, h2]
    | some t =>
      by_cases hd : dateOf (ts ev.blockNumber) = d
      · have h1 : afind (processEvent ts m ev) d = updAgg t (afind m d) := by
          simp only [processEvent, hdec, observe]
          rw [hd, afind_aupd_self]
        have h2 : eventSender ts d ev = some t.from_address := by
          simp [eventSender, hdec, hd]
        rw [h1, h2]
        simp only [updAgg, List.toFinset_cons]
        rw [Finset.insert_union, Finset.union_insert]
      · have h1 : afind (processEvent ts m ev) d = afind m d := by
          simp only [processEvent, hdec, observe]
          exact afind_aupd_ne _ _ _ _ hd
        have h2 : eventSender ts d ev = none := by simp [eventSender, hdec, hd]
        rw [h1, h2]

theorem processEvents_receivers (ts : ℕ → ℕ) (d : ℕ) :
    ∀ (l : List RawLog) (m : AggMap),
      (afind (processEvents ts m l) d).receivers =
        (afind m d).receivers ∪ (l.filterMap (eventReceiver ts d)).toFinset := by
  intro l
  induction l with
  | nil => intro m; simp [processEvents]
  | cons ev rest ih =>
    intro m
    have hstep : processEvents ts m (ev :: rest) = processEvents ts (processEvent ts m ev) rest :=
      rfl
    rw [hstep, ih, List.filterMap_cons]
    cases hdec : decode_transfer_event ev with
    | none =>
      have h1 : processEvent ts m ev = m := by simp [processEvent, hdec]
      have h2 : eventReceiver ts d ev = none := by simp [eventReceiver, hdec]
      rw [h1, h2]
    | some t =>
      by_cases hd : dateOf (ts ev.blockNumber) = d
      · have h1 : afind (processEvent ts m ev) d = updAgg t (afind m d) := by
          simp only [processEvent, hdec, observe]
          rw [hd, afind_aupd_self]
        have h2 : eventReceiver ts d ev = some t.to_address := by
          simp [eventReceiver, hdec, hd]
        rw [h1, h2]
        simp only [updAgg, List.toFinset_cons]
        rw [Finset.insert_union, Finset.union_insert]
      · have h1 : afind (processEvent ts m ev) d = afind m d := by
          simp only [processEvent, hdec, observe]
          exact afind_aupd_ne _ _ _ _ hd
        have h2 : eventReceiver ts d ev = none := by simp [eventReceiver, hdec, hd]
        rw [h1, h2]

/-- Claim C5 (amended): feeding the same multiset of raw logs in any order
into a fresh chunk aggregation yields, for every day, identical transaction
counts, sender sets, receiver sets and active-address sets.  (The volume
field is a binary64 running sum and is not, in general, order-independent:
see the counterexample.) -/
theorem c5_amended_order_independent (ts : ℕ → ℕ) (l₁ l₂ : List RawLog)
    (hperm : List.Perm l₁ l₂) (d : ℕ) :
    (afind (chunk_metrics ts l₁) d).transactions =
      (afind (chunk_metrics ts l₂) d).transactions ∧
    (afind (chunk_metrics ts l₁) d).senders = (afind (chunk_metrics ts l₂) d).senders ∧
    (afind (chunk_metrics ts l₁) d).receivers = (afind (chunk_metrics ts l₂) d).receivers ∧
    (afind (chunk_metrics ts l₁) d).active_addresses =
      (afind (chunk_metrics ts l₂) d).active_addresses := by
  have hbase : (afind ([] : AggMap) d).active_addresses =
      (afind ([] : AggMap) d).senders ∪ (afind ([] : AggMap) d).receivers ∧
      0 ≤ (afind ([] : AggMap) d).volume.m := by
    simp [afind, emptyAgg]
  have ht : (afind (chunk_metrics ts l₁) d).transactions =
      (afind (chunk_metrics ts l₂) d).transactions := by
    rw [chunk_metrics, chunk_metrics, processEvents_transactions, processEvents_transactions,
        hperm.countP_eq]
  have hs : (afind (chunk_metrics ts l₁) d).senders =
      (afind (chunk_metrics ts l₂) d).senders := by
    rw [chunk_metrics, chunk_metrics, processEvents_senders, processEvents_senders]
    congr 1
    ext x
    simp only [List.mem_toFinset]
    exact (hperm.filterMap (eventSender ts d)).mem_iff
  have hr : (afind (chunk_metrics ts l₁) d).receivers =
      (afind (chunk_metrics ts l₂) d).receivers := by
    rw [chunk_metrics, chunk_metrics, processEvents_receivers, processEvents_receivers]
    congr 1
    ext x
    simp only [List.mem_toFinset]
    exact (hperm.filterMap (eventReceiver ts d)).mem_iff
  refine ⟨ht, hs, hr, ?_⟩
  rw [chunk_metrics, chunk_metrics] at hs hr ⊢
  rw [(processEvents_inv ts l₁ [] d hbase).1, (processEvents_inv ts l₂ [] d hbase).1, hs, hr]

/-! ## Flush/checkpoint ordering (claim C8) -/

theorem marksOkB_mono : ∀ (ms : List (Bool × ℕ)) (b b' : ℕ), b ≤ b' →
    marksOkB b' ms = true → marksOkB b ms = true
  | [], _, _, _, _ => rfl
  | (true, e) :: r, b, b', hbb, h => by
    simp only [marksOkB, Bool.and_eq_true, decide_eq_true_eq] at h ⊢
    exact ⟨by omega, h.2⟩
  | (false, e) :: (true, e') :: r, b, b', hbb, h => by
    simp only [marksOkB, Bool.and_eq_true, decide_eq_true_eq] at h ⊢
    obtain ⟨⟨h1, h2⟩, h3⟩ := h
    exact ⟨⟨h1, by omega⟩, h3⟩
  | (false, e) :: [], b, b', hbb, h => by
    simp [marksOkB] at h
  | (false, e) :: (false, e') :: r, b, b', hbb, h => by
    simp [marksOkB] at h

theorem cpLasts_eq_trueMarks : ∀ tr : List Ev, cpLastsOf tr = trueMarks (marksOf tr) := by
  intro tr
  induction tr with
  | nil => rfl
  | cons ev rest ih =>
    cases ev <;> simp [cpLastsOf, marksOf, trueMarks, evMark] <;>
      simpa [cpLastsOf, marksOf, trueMarks] using ih

theorem marksOkB_chain : ∀ (ms : List (Bool × ℕ)) (b : ℕ), marksOkB b ms = true →
    List.Chain' (· ≤ ·) (trueMarks ms) ∧ (∀ x ∈ (trueMarks ms).head?, b ≤ x)
  | [], _, _ => ⟨List.chain'_nil, by simp [trueMarks]⟩
  | (true, e) :: r, b, h => by
    simp only [marksOkB, Bool.and_eq_true, decide_eq_true_eq] at h
    have ih := marksOkB_chain r (e+1) h.2
    have htm : trueMarks ((true, e) :: r) = e :: trueMarks r := by simp [trueMarks]
    rw [htm]
    constructor
    · rw [List.chain'_cons']
      exact ⟨fun y hy => by have := ih.2 y hy; omega, ih.1⟩
    · intro x hx
      simp only [List.head?_cons, Option.mem_def, Option.some.injEq] at hx
      omega
  | (false, e) :: (true, e') :: r, b, h => by
    simp only [marksOkB, Bool.and_eq_true, decide_eq_true_eq] at h
    obtain ⟨⟨he, hb⟩, hok⟩ := h
    have ih := marksOkB_chain r (e+1) hok
    have htm : trueMarks ((false, e) :: (true, e') :: r) = e' :: trueMarks r := by
      simp [trueMarks]
    rw [htm]
    constructor
    · rw [List.chain'_cons']
      exact ⟨fun y hy => by have := ih.2 y hy; omega, ih.1⟩
    · intro x hx
      simp only [List.head?_cons, Option.mem_def, Option.some.injEq] at hx
      omega
  | (false, e) :: [], b, h => by simp [marksOkB] at h
  | (false, e) :: (false, e') :: r, b, h => by simp [marksOkB] at h

theorem runFrom_marksOk (ts : ℕ → ℕ) (end_block : ℕ) :
    ∀ (oracle : List (Option (List RawLog))) (st : LoopState), 1 ≤ st.chunk_size →
      marksOkB (st.current_block + 1) (marksOf (runFrom ts end_block oracle st).2) = true := by
  intro oracle
  induction oracle with
  | nil => intro st _; rfl
  | cons o rest ih =>
    intro st hcs
    by_cases h : st.current_block < end_block
    · cases o with
      | some evs =>
        rw [runFrom]
        simp only [if_pos h, stepIter, Bool.false_eq_true, if_false]
        simp only [List.cons_append, List.append_assoc, marksOf_cons_fetch, marksOf_append,
          marksOf_cons_checkpoint, marksOf_cons_sleep, marksOf_nil]
        have hcb : st.current_block + 1 ≤ min (st.current_block + st.chunk_size) end_block := by
          omega
        have hih := ih ⟨min (st.current_block + st.chunk_size) end_block + 1, st.chunk_size,
          (st.current_block, end_block, min (st.current_block + st.chunk_size) end_block),
          st.sink ++ csvRows (chunk_metrics ts evs)⟩ hcs
        simp only at hih
        have hweak : marksOkB (min (st.current_block + st.chunk_size) end_block + 1)
            (marksOf (runFrom ts end_block rest
              ⟨min (st.current_block + st.chunk_size) end_block + 1, st.chunk_size,
               (st.current_block, end_block, min (st.current_block + st.chunk_size) end_block),
               st.sink ++ csvRows (chunk_metrics ts evs)⟩).2) = true :=
          marksOkB_mono _ _ _ (by omega) hih
        by_cases hr : csvRows (chunk_metrics ts evs) = []
        · simp only [if_pos hr, marksOf_nil, List.nil_append]
          simp only [marksOkB, Bool.and_eq_true, decide_eq_true_eq]
          exact ⟨hcb, hweak⟩
        · simp only [if_neg hr, marksOf_cons_flush, marksOf_nil, List.cons_append,
            List.nil_append]
          simp only [marksOkB, Bool.and_eq_true, decide_eq_true_eq]
          exact ⟨⟨trivial, hcb⟩, hweak⟩
      | none =>
        rw [runFrom]
        simp only [if_pos h, stepIter]
        by_cases habort : st.chunk_size / 2 < 100
        · simp only [if_pos habort]
          rfl
        · simp only [if_neg habort, Bool.false_eq_true, if_false]
          simp only [List.cons_append, marksOf_cons_fetch, marksOf_cons_sleep,
            List.nil_append, marksOf_append, marksOf_nil]
          have hih := ih ⟨st.current_block, st.chunk_size / 2, st.progress, st.sink⟩
            (by show 1 ≤ st.chunk_size / 2; omega)
          simpa using hih
    · rw [runFrom]
      simp only [if_neg h]
      rfl

/-- Claim C8: in every execution of the scan, a chunk's CSV rows are appended
immediately before - and only before - the `progress.txt` record marking that
chunk's `chunk_end` as `last_processed` (captured by `marksOkB`, which also
forces the marked block numbers to be strictly increasing after the initial
pre-loop record), and the sequence of persisted `last_processed` values is
monotonically non-decreasing. -/
theorem c8_flush_before_checkpoint (ts : ℕ → ℕ) (height start_ts end_ts chunk_size : ℕ)
    (saved : Option (ℕ × ℕ × ℕ)) (oracle : List (Option (List RawLog)))
    (hcs : 1 ≤ chunk_size) :
    marksOkB 0
      (marksOf (get_token_metrics ts height start_ts end_ts chunk_size saved oracle).2) =
      true ∧
    List.Chain' (· ≤ ·)
      (cpLastsOf (get_token_metrics ts height start_ts end_ts chunk_size saved oracle).2) := by
  rw [get_token_metrics]
  by_cases h0 : find_block_by_timestamp ts height start_ts = 0 ∨
      find_block_by_timestamp ts height end_ts = 0
  · simp only [if_pos h0]
    exact ⟨rfl, List.chain'_nil⟩
  · simp only [if_neg h0]
    have hrun := runFrom_marksOk ts (find_block_by_timestamp ts height end_ts) oracle
      ⟨find_block_by_timestamp ts height start_ts, chunk_size,
       (find_block_by_timestamp ts height start_ts, find_block_by_timestamp ts height end_ts,
        find_block_by_timestamp ts height start_ts), []⟩ hcs
    simp only at hrun
    have hok : marksOkB 0 (marksOf
        (Ev.checkpoint (find_block_by_timestamp ts height start_ts)
          (find_block_by_timestamp ts height end_ts)
          (find_block_by_timestamp ts height start_ts) ::
         (runFrom ts (find_block_by_timestamp ts height end_ts) oracle
           ⟨find_block_by_timestamp ts height start_ts, chunk_size,
            (find_block_by_timestamp ts height start_ts,
             find_block_by_timestamp ts height end_ts,
             find_block_by_timestamp ts height start_ts), []⟩).2)) = true := by
      rw [marksOf_cons_checkpoint]
      simp only [marksOkB, Bool.and_eq_true, decide_eq_true_eq]
      exact ⟨Nat.zero_le _, hrun⟩
    refine ⟨hok, ?_⟩
    rw [cpLasts_eq_trueMarks]
    exact (marksOkB_chain _ 0 hok).1

/-! ## Binary search characterisation (claim C4) -/

theorem fbbt_aux_spec (ts : ℕ → ℕ) (height target : ℕ) (hmono : Monotone ts)
    (hh : 1 ≤ height) :
    ∀ (n left right : ℕ) (h1 : 1 ≤ left), right + 1 - left ≤ n →
      left ≤ right + 1 → right ≤ height →
      (∀ j, 1 ≤ j → j < left → ts j < target) →
      (∀ j, right < j → j ≤ height → target < ts j) →
      (1 ≤ fbbt_aux ts height target left right h1 ∧
       fbbt_aux ts height target left right h1 ≤ height ∧
       (ts (fbbt_aux ts height target left right h1) = target ∨
        (target < ts (fbbt_aux ts height target left right h1) ∧
         ∀ j, 1 ≤ j → j < fbbt_aux ts height target left right h1 → ts j < target) ∨
        (fbbt_aux ts height target left right h1 = height ∧
         ∀ j, 1 ≤ j → j ≤ height → ts j < target))) := by
  intro n
  induction n with
  | zero =>
    intro left right h1 hn hlr hrh hinvL hinvR
    have hnle : ¬ left ≤ right := by omega
    rw [fbbt_aux, dif_neg hnle]
    by_cases hlh : left ≤ height
    · rw [if_pos hlh]
      exact ⟨by omega, hlh,
        Or.inr (Or.inl ⟨hinvR left (by omega) hlh, fun j hj1 hj2 => hinvL j hj1 hj2⟩)⟩
    · rw [if_neg hlh]
      have hrheq : right = height := by omega
      exact ⟨by omega, by omega,
        Or.inr (Or.inr ⟨hrheq, fun j hj1 hj2 => hinvL j hj1 (by omega)⟩)⟩
  | succ n ih =>
    intro left right h1 hn hlr hrh hinvL hinvR
    by_cases hle : left ≤ right
    · have hstep : fbbt_aux ts height target left right h1 =
          (if ts ((left + right)/2) = target then (left + right)/2
           else if ts ((left + right)/2) < target then
             fbbt_aux ts height target ((left + right)/2 + 1) right (by omega)
           else fbbt_aux ts height target left ((left + right)/2 - 1) h1) := by
        rw [fbbt_aux, dif_pos hle]
      rw [hstep]
      have hmid1 : left ≤ (left + right)/2 := by omega
      have hmid2 : (left + right)/2 ≤ right := by omega
      by_cases heq : ts ((left + right)/2) = target
      · rw [if_pos heq]
        exact ⟨by omega, by omega, Or.inl heq⟩
      · rw [if_neg heq]
        by_cases hlt : ts ((left + right)/2) < target
        · rw [if_pos hlt]
          exact ih ((left + right)/2 + 1) right (by omega) (by omega) (by omega) hrh
            (fun j hj1 hj2 => lt_of_le_of_lt (hmono (by omega : j ≤ (left + right)/2)) hlt)
            hinvR
        · rw [if_neg hlt]
          have hgt : target < ts ((left + right)/2) := by omega
          exact ih left ((left + right)/2 - 1) h1 (by omega) (by omega) (by omega) hinvL
            (fun j hj1 hj2 => lt_of_lt_of_le hgt (hmono (by omega : (left + right)/2 ≤ j)))
    · have hnle : ¬ left ≤ right := hle
      rw [fbbt_aux, dif_neg hnle]
      by_cases hlh : left ≤ height
      · rw [if_pos hlh]
        exact ⟨by omega, hlh,
          Or.inr (Or.inl ⟨hinvR left (by omega) hlh, fun j hj1 hj2 => hinvL j hj1 hj2⟩)⟩
      · rw [if_neg hlh]
        have hrheq : right = height := by omega
        exact ⟨by omega, by omega,
          Or.inr (Or.inr ⟨hrheq, fun j hj1 hj2 => hinvL j hj1 (by omega)⟩)⟩

/-- Claim C4 (amended): on a chain table with non-decreasing timestamps,
`find_block_by_timestamp` returns a block in `[1, height]` whose timestamp
either equals the target, or exceeds it while every earlier block's timestamp
is below it (the least block with timestamp above the target), or - when all
timestamps are below the target - is `height` itself.  It does NOT in general
return the block whose timestamp is closest to the target: when the target
falls between two blocks, the later block is returned even if the earlier one
is closer (see the counterexample). -/
theorem c4_amended_locate (ts : ℕ → ℕ) (height target : ℕ) (hmono : Monotone ts)
    (hh : 1 ≤ height) :
    1 ≤ find_block_by_timestamp ts height target ∧
    find_block_by_timestamp ts height target ≤ height ∧
    (ts (find_block_by_timestamp ts height target) = target ∨
     (target < ts (find_block_by_timestamp ts height target) ∧
      ∀ j, 1 ≤ j → j < find_block_by_timestamp ts height target → ts j < target) ∨
     (find_block_by_timestamp ts height target = height ∧
      ∀ j, 1 ≤ j → j ≤ height → ts j < target)) := by
  exact fbbt_aux_spec ts height target hmono hh height 1 height (le_refl 1)
    (by omega) (by omega) (le_refl _)
    (fun j hj1 hj2 => by omega)
    (fun j hj1 hj2 => by omega)

/-- Claim C4 counterexample: with the 2-block chain `exTs` (timestamps 100,
200) and target 101, `find_block_by_timestamp` returns block 2, although
block 1's timestamp is strictly closer to the target - refuting the claim
that the returned block's timestamp is the closest available, as a
brute-force comparison would determine. -/
theorem c4_counterexample :
    find_block_by_timestamp exTs 2 101 = 2 ∧
    ((exTs 1 : ℤ) - 101).natAbs < ((exTs 2 : ℤ) - 101).natAbs := by
  constructor
  · rw [find_block_by_timestamp, fbbt_aux]; norm_num [exTs]
    rw [fbbt_aux]; norm_num [exTs]
    rw [fbbt_aux]; norm_num
  · decide

/-! ## Resume behaviour (claim C1) -/

theorem exTs_locate_100 : find_block_by_timestamp exTs 10 100 = 1 := by
  rw [find_block_by_timestamp, fbbt_aux]; norm_num [exTs]
  rw [fbbt_aux]; norm_num [exTs]
  rw [fbbt_aux]; norm_num [exTs]

theorem exTs_locate_1000 : find_block_by_timestamp exTs 10 1000 = 10 := by
  rw [find_block_by_timestamp, fbbt_aux]; norm_num [exTs]
  rw [fbbt_aux]; norm_num [exTs]
  rw [fbbt_aux]; norm_num [exTs]
  rw [fbbt_aux]; norm_num [exTs]

/-- Claim C1 (amended): `get_token_metrics` never reads a saved checkpoint:
its result is identical for every value of `saved_progress` (the source
writes `progress.txt` but never reads it, and each run gets a fresh session
directory), and whenever the scan starts at all, its trace begins with the
initial `progress.txt` write at the date-derived start block followed by a
fetch attempt whose window starts at that same date-derived start block -
never at `lastProcessedBlock + 1`. -/
theorem c1_amended_no_resume (ts : ℕ → ℕ) (height start_ts end_ts chunk_size : ℕ)
    (prior prior' : Option (ℕ × ℕ × ℕ)) (o : Option (List RawLog))
    (rest : List (Option (List RawLog)))
    (hs : find_block_by_timestamp ts height start_ts ≠ 0)
    (he : find_block_by_timestamp ts height end_ts ≠ 0)
    (hlt : find_block_by_timestamp ts height start_ts <
      find_block_by_timestamp ts height end_ts) :
    get_token_metrics ts height start_ts end_ts chunk_size prior (o :: rest) =
      get_token_metrics ts height start_ts end_ts chunk_size prior' (o :: rest) ∧
    ∃ tr, (get_token_metrics ts height start_ts end_ts chunk_size prior (o :: rest)).2 =
      Ev.checkpoint (find_block_by_timestamp ts height start_ts)
        (find_block_by_timestamp ts height end_ts)
        (find_block_by_timestamp ts height start_ts) ::
      Ev.fetchAttempt (find_block_by_timestamp ts height start_ts)
        (min (find_block_by_timestamp ts height start_ts + chunk_size)
          (find_block_by_timestamp ts height end_ts)) :: tr := by
  refine ⟨rfl, ?_⟩
  rw [get_token_metrics]
  rw [if_neg (by push_neg; exact ⟨hs, he⟩)]
  cases o with
  | some evs =>
    simp only [runFrom, stepIter, Bool.false_eq_true, if_false, if_pos hlt,
      List.cons_append, List.append_assoc]
    exact ⟨_, rfl⟩
  | none =>
    simp only [runFrom, stepIter, if_pos hlt]
    by_cases habort : chunk_size / 2 < 100
    · simp only [if_pos habort]
      exact ⟨_, rfl⟩
    · simp only [if_neg habort, Bool.false_eq_true, if_false, List.cons_append]
      exact ⟨_, rfl⟩

/-- Claim C1 counterexample: with a prior checkpoint recording
`lastProcessedBlock = 5` for the very same block range 1-10, a new
invocation still fetches the window (1, 10): it starts at the date-derived
`startBlock = 1`, re-scanning blocks at and below `lastProcessedBlock`,
refuting both "resumes at lastProcessedBlock + 1" and "never re-scans any
block at or below lastProcessedBlock". -/
theorem c1_counterexample :
    fetchesOf (get_token_metrics exTs 10 100 1000 1000 (some (1, 10, 5)) [some []]).2 =
      [(1, 10)] ∧ (1 : ℕ) ≤ 5 := by
  refine ⟨?_, by norm_num⟩
  rw [get_token_metrics, exTs_locate_100, exTs_locate_1000]
  decide

/-! ## Exact-rounding lemmas for the float model (claim C2) -/

theorem log2fuel_lt (f : ℕ) : ∀ n, 1 ≤ n → n < 2^f → n < 2^(log2fuel f n + 1) := by
  induction f with
  | zero =>
    intro n h1 h2
    simp only [pow_zero] at h2
    omega
  | succ f ih =>
    intro n h1 h2
    rw [log2fuel]
    by_cases hn : 2 ≤ n
    · simp only [if_pos hn]
      have hhalf : n / 2 < 2^f := by
        rw [pow_succ] at h2
        omega
      have hih := ih (n/2) (by omega) hhalf
      rw [pow_succ]
      omega
    · simp only [if_neg hn, zero_add, pow_one]
      omega

theorem natLog2_spec (n : ℕ) (h1 : 1 ≤ n) (h2 : n < 2^300) :
    2^(natLog2 n) ≤ n ∧ n < 2^(natLog2 n + 1) :=
  ⟨log2fuel_le 300 n h1, log2fuel_lt 300 n h1 h2⟩

theorem natLog2_unique (n L : ℕ) (hr : n < 2^300) (h1 : 2^L ≤ n) (h2 : n < 2^(L+1)) :
    natLog2 n = L := by
  have hn1 : 1 ≤ n := le_trans (Nat.one_le_pow L 2 (by norm_num)) h1
  have hs := natLog2_spec n hn1 hr
  by_contra hne
  rcases Nat.lt_or_ge (natLog2 n) L with hlt | hge
  · have : 2^(natLog2 n + 1) ≤ 2^L := Nat.pow_le_pow_right (by norm_num) (by omega)
    omega
  · have : 2^(L+1) ≤ 2^(natLog2 n) := Nat.pow_le_pow_right (by norm_num) (by omega)
    omega

theorem rnHalfEven_exact (num den : ℕ) (hden : 0 < den) (hdvd : den ∣ num) :
    rnHalfEven num den = num / den := by
  obtain ⟨c, rfl⟩ := hdvd
  have hr : den * c % den = 0 := Nat.mul_mod_right den c
  simp only [rnHalfEven, hr]
  simp [hden]

theorem roundPosDyadic_exact (a : ℕ) (d : ℤ) (h1 : 1 ≤ a) (h2 : a ≤ 2^53) :
    ∃ M : ℕ, roundPosDyadic a d = ⟨(M:ℤ), d + (natLog2 a : ℤ) - 52⟩ ∧
      2^52 ≤ M ∧ M < 2^53 ∧ (M:ℚ) * (2:ℚ)^((natLog2 a : ℤ) - 52) = (a:ℚ) := by
  have har : a < 2^300 := lt_of_le_of_lt h2 (by norm_num)
  have hs := natLog2_spec a h1 har
  by_cases hL : natLog2 a ≤ 52
  · refine ⟨a * 2^(52 - natLog2 a), ?_, ?_, ?_, ?_⟩
    · simp only [roundPosDyadic, if_pos hL, Fl.mk.injEq]
      constructor
      · push_cast
        ring
      · omega
    · calc (2:ℕ)^52 = 2^(natLog2 a) * 2^(52 - natLog2 a) := by
            rw [← pow_add]
            congr 1
            omega
        _ ≤ a * 2^(52 - natLog2 a) := Nat.mul_le_mul_right _ hs.1
    · calc a * 2^(52 - natLog2 a) < 2^(natLog2 a + 1) * 2^(52 - natLog2 a) :=
            mul_lt_mul_of_pos_right hs.2 (Nat.pos_pow_of_pos _ (by norm_num))
        _ = 2^53 := by
            rw [← pow_add]
            congr 1
            omega
    · push_cast
      rw [mul_assoc, ← zpow_natCast (2:ℚ) (52 - natLog2 a),
          ← zpow_add₀ (by norm_num : (2:ℚ) ≠ 0),
          show ((52 - natLog2 a : ℕ) : ℤ) + ((natLog2 a : ℤ) - 52) = 0 by omega,
          zpow_zero, mul_one]
  · have h53 : 2^53 ≤ 2^(natLog2 a) := Nat.pow_le_pow_right (by norm_num) (by omega)
    have ha : a = 2^53 := by omega
    subst ha
    have hL53 : natLog2 (2^53) = 53 :=
      natLog2_unique _ 53 (by norm_num) (le_refl _) (by norm_num)
    refine ⟨2^52, ?_, le_refl _, by norm_num, ?_⟩
    · simp only [roundPosDyadic, hL53]
      rw [if_neg (by norm_num)]
      have hm : rnHalfEven (2^53) (2^(53 - 52)) = 2^52 := by decide
      rw [hm, if_neg (by norm_num)]
      simp only [Fl.mk.injEq]
      constructor
      · norm_num
      · push_cast
        ring
    · rw [hL53]
      rw [show ((53:ℕ) : ℤ) - 52 = 1 by norm_num, zpow_one]
      norm_num

theorem ofNat_exact (v : ℕ) (h1 : 1 ≤ v) (h2 : v ≤ 2^53) :
    ∃ M : ℕ, Fl.ofNat v = ⟨(M:ℤ), (natLog2 v : ℤ) - 52⟩ ∧ 2^52 ≤ M ∧ M < 2^53 ∧
      (M:ℚ) * (2:ℚ)^((natLog2 v : ℤ) - 52) = (v:ℚ) := by
  obtain ⟨M, heq, hb1, hb2, hval⟩ := roundPosDyadic_exact v 0 h1 h2
  refine ⟨M, ?_, hb1, hb2, hval⟩
  rw [Fl.ofNat, if_neg (by omega), heq]
  congr 1
  omega

theorem le2z_iff (b : ℕ) (e : ℤ) (a : ℕ) :
    le2z b e a = true ↔ (2:ℚ)^e * b ≤ a := by
  rw [le2z]
  by_cases he : 0 ≤ e
  · obtain ⟨n, rfl⟩ : ∃ n : ℕ, e = (n:ℤ) := ⟨e.toNat, (Int.toNat_of_nonneg he).symm⟩
    rw [if_pos he, decide_eq_true_eq, Int.toNat_natCast, zpow_natCast,
        show ((2:ℚ)^n * b) = ((b * 2^n : ℕ) : ℚ) by push_cast; ring, Nat.cast_le]
  · have he2 : (0:ℤ) ≤ -e := by omega
    obtain ⟨n, hn⟩ : ∃ n : ℕ, -e = (n:ℤ) := ⟨(-e).toNat, (Int.toNat_of_nonneg he2).symm⟩
    have hee : e = -(n:ℤ) := by omega
    subst hee
    rw [if_neg he, decide_eq_true_eq,
        show (-(-(n:ℤ))).toNat = n by omega, zpow_neg, zpow_natCast]
    rw [inv_mul_le_iff₀ (by positivity),
        show ((2:ℚ)^n * (a:ℚ)) = ((a * 2^n : ℕ) : ℚ) by push_cast; ring, Nat.cast_le]

theorem ratFloorLog2_spec (a b : ℕ) (ha : 1 ≤ a) (hb : 1 ≤ b)
    (har : a < 2^300) (hbr : b < 2^300) :
    (2:ℚ)^(ratFloorLog2 a b) * b ≤ a ∧ (a:ℚ) < (2:ℚ)^(ratFloorLog2 a b + 1) * b := by
  have hsa := natLog2_spec a ha har
  have hsb := natLog2_spec b hb hbr
  have hsaQ1 : ((2:ℚ))^((natLog2 a : ℕ)) ≤ (a:ℚ) := by exact_mod_cast hsa.1
  have hsaQ2 : (a:ℚ) < ((2:ℚ))^(natLog2 a + 1) := by exact_mod_cast hsa.2
  have hsbQ1 : ((2:ℚ))^((natLog2 b : ℕ)) ≤ (b:ℚ) := by exact_mod_cast hsb.1
  have hsbQ2 : (b:ℚ) < ((2:ℚ))^(natLog2 b + 1) := by exact_mod_cast hsb.2
  simp only [ratFloorLog2]
  by_cases hle : le2z b ((natLog2 a : ℤ) - (natLog2 b : ℤ)) a = true
  · rw [if_pos hle]
    refine ⟨(le2z_iff _ _ _).mp hle, ?_⟩
    calc (a:ℚ) < (2:ℚ)^(natLog2 a + 1) := hsaQ2
      _ = (2:ℚ)^((natLog2 a : ℤ) - (natLog2 b : ℤ) + 1) * (2:ℚ)^((natLog2 b : ℕ)) := by
          rw [← zpow_natCast (2:ℚ) (natLog2 a + 1), ← zpow_natCast (2:ℚ) (natLog2 b),
              ← zpow_add₀ (by norm_num : (2:ℚ) ≠ 0)]
          congr 1
          push_cast
          ring
      _ ≤ (2:ℚ)^((natLog2 a : ℤ) - (natLog2 b : ℤ) + 1) * b := by
          apply mul_le_mul_of_nonneg_left hsbQ1 (by positivity)
  · rw [if_neg hle]
    constructor
    · have hstep : (2:ℚ)^((natLog2 a : ℤ) - (natLog2 b : ℤ) - 1) * b <
          (2:ℚ)^((natLog2 a : ℤ) - (natLog2 b : ℤ) - 1) * (2:ℚ)^((natLog2 b : ℕ) + 1) := by
        apply mul_lt_mul_of_pos_left hsbQ2 (by positivity)
      have heq2 : (2:ℚ)^((natLog2 a : ℤ) - (natLog2 b : ℤ) - 1) *
          (2:ℚ)^((natLog2 b : ℕ) + 1) = (2:ℚ)^((natLog2 a : ℕ)) := by
        rw [← zpow_natCast (2:ℚ) (natLog2 b + 1), ← zpow_natCast (2:ℚ) (natLog2 a),
            ← zpow_add₀ (by norm_num : (2:ℚ) ≠ 0)]
        congr 1
        push_cast
        ring
      have := hstep.trans_le (heq2.le.trans hsaQ1)
      exact this.le
    · have hnot : ¬ ((2:ℚ)^((natLog2 a : ℤ) - (natLog2 b : ℤ)) * b ≤ a) :=
        fun hc => hle ((le2z_iff _ _ _).mpr hc)
      have := not_le.mp hnot
      rw [show (natLog2 a : ℤ) - (natLog2 b : ℤ) - 1 + 1 =
        (natLog2 a : ℤ) - (natLog2 b : ℤ) by ring]
      exact this

theorem ratFloorLog2_unique (a b : ℕ) (E : ℤ) (ha : 1 ≤ a) (hb : 1 ≤ b)
    (har : a < 2^300) (hbr : b < 2^300)
    (h1 : (2:ℚ)^E * b ≤ a) (h2 : (a:ℚ) < (2:ℚ)^(E+1) * b) :
    ratFloorLog2 a b = E := by
  have hs := ratFloorLog2_spec a b ha hb har hbr
  have hbpos : (0:ℚ) < b := by exact_mod_cast hb
  by_contra hne
  rcases lt_or_gt_of_ne hne with hlt | hgt
  · have hmono : (2:ℚ)^(ratFloorLog2 a b + 1) ≤ (2:ℚ)^E :=
      zpow_le_zpow_right₀ (by norm_num) (by omega)
    have := mul_le_mul_of_nonneg_right hmono (le_of_lt hbpos)
    linarith [hs.2, h1]
  · have hmono : (2:ℚ)^(E + 1) ≤ (2:ℚ)^(ratFloorLog2 a b) :=
      zpow_le_zpow_right₀ (by norm_num) (by omega)
    have := mul_le_mul_of_nonneg_right hmono (le_of_lt hbpos)
    linarith [hs.1, h2]

theorem roundPosRat_exact (a b u : ℕ) (c d : ℤ)
    (ha : 1 ≤ a) (hb : 1 ≤ b) (har : a < 2^300) (hbr : b < 2^300)
    (hu1 : 1 ≤ u) (hu2 : u < 2^53)
    (hval : (a:ℚ) = (u:ℚ) * (2:ℚ)^c * b) :
    toRat (roundPosRat a b d) = (u:ℚ) * (2:ℚ)^(c + d) := by
  have hur : u < 2^300 := lt_of_lt_of_le hu2 (by norm_num)
  have hsu := natLog2_spec u hu1 hur
  have hLu : natLog2 u ≤ 52 := by
    by_contra hc
    have : 2^53 ≤ 2^(natLog2 u) := Nat.pow_le_pow_right (by norm_num) (by omega)
    omega
  have hbposQ : (0:ℚ) < b := by exact_mod_cast hb
  have hE : ratFloorLog2 a b = c + (natLog2 u : ℤ) := by
    apply ratFloorLog2_unique a b _ ha hb har hbr
    · rw [hval]
      have h2 : (2:ℚ)^((natLog2 u : ℕ)) ≤ u := by exact_mod_cast hsu.1
      calc (2:ℚ)^(c + (natLog2 u:ℤ)) * b = ((2:ℚ)^((natLog2 u : ℕ)) * (2:ℚ)^c) * b := by
            rw [← zpow_natCast (2:ℚ) (natLog2 u), ← zpow_add₀ (by norm_num : (2:ℚ) ≠ 0)]
            congr 2
            ring
        _ ≤ ((u:ℚ) * (2:ℚ)^c) * b := by
            apply mul_le_mul_of_nonneg_right ?_ (le_of_lt hbposQ)
            apply mul_le_mul_of_nonneg_right h2 (by positivity)
    · rw [hval]
      have h2 : (u:ℚ) < (2:ℚ)^(natLog2 u + 1) := by exact_mod_cast hsu.2
      calc (u:ℚ) * (2:ℚ)^c * b < ((2:ℚ)^(natLog2 u + 1) * (2:ℚ)^c) * b := by
            apply mul_lt_mul_of_pos_right ?_ hbposQ
            apply mul_lt_mul_of_pos_right h2 (by positivity)
        _ = (2:ℚ)^(c + (natLog2 u:ℤ) + 1) * b := by
            rw [← zpow_natCast (2:ℚ) (natLog2 u + 1),
                ← zpow_add₀ (by norm_num : (2:ℚ) ≠ 0)]
            congr 2
            push_cast
            ring
  have hmlt : u * 2^(52 - natLog2 u) < 2^53 := by
    calc u * 2^(52 - natLog2 u) < 2^(natLog2 u + 1) * 2^(52 - natLog2 u) :=
          mul_lt_mul_of_pos_right hsu.2 (Nat.pos_pow_of_pos _ (by norm_num))
      _ = 2^53 := by
          rw [← pow_add]
          congr 1
          omega
  simp only [roundPosRat, hE]
  by_cases hE52 : c + (natLog2 u : ℤ) ≤ 52
  · rw [if_pos hE52]
    have hkey : a * 2^((52 - (c + (natLog2 u:ℤ))).toNat) = (u * 2^(52 - natLog2 u)) * b := by
      have hq : ((a * 2^((52 - (c + (natLog2 u:ℤ))).toNat) : ℕ) : ℚ) =
          (((u * 2^(52 - natLog2 u)) * b : ℕ) : ℚ) := by
        push_cast
        rw [hval,
            ← zpow_natCast (2:ℚ) ((52 - (c + (natLog2 u:ℤ))).toNat),
            ← zpow_natCast (2:ℚ) (52 - natLog2 u),
            show (u:ℚ) * (2:ℚ)^c * b * (2:ℚ)^(((52 - (c + (natLog2 u:ℤ))).toNat : ℤ)) =
              (u:ℚ) * ((2:ℚ)^c * (2:ℚ)^(((52 - (c + (natLog2 u:ℤ))).toNat : ℤ))) * b
              from by ring,
            ← zpow_add₀ (by norm_num : (2:ℚ) ≠ 0),
            show c + (((52 - (c + (natLog2 u:ℤ))).toNat : ℤ)) = ((52 - natLog2 u : ℕ) : ℤ)
              from by omega]
      exact_mod_cast hq
    have hdvd : b ∣ a * 2^((52 - (c + (natLog2 u:ℤ))).toNat) :=
      ⟨u * 2^(52 - natLog2 u), by rw [hkey]; ring⟩
    rw [rnHalfEven_exact _ _ (by omega) hdvd, hkey, Nat.mul_div_cancel _ (by omega)]
    rw [if_neg (by omega)]
    rw [toRat]
    push_cast
    rw [← zpow_natCast (2:ℚ) (52 - natLog2 u), mul_assoc,
        ← zpow_add₀ (by norm_num : (2:ℚ) ≠ 0)]
    congr 2
    omega
  · rw [if_neg hE52]
    have hkey : a = (u * 2^(52 - natLog2 u)) * (b * 2^((c + (natLog2 u:ℤ) - 52).toNat)) := by
      have hq : (a:ℚ) =
          (((u * 2^(52 - natLog2 u)) * (b * 2^((c + (natLog2 u:ℤ) - 52).toNat)) : ℕ) : ℚ) := by
        push_cast
        rw [hval,
            ← zpow_natCast (2:ℚ) (52 - natLog2 u),
            ← zpow_natCast (2:ℚ) ((c + (natLog2 u:ℤ) - 52).toNat),
            show (u:ℚ) * (2:ℚ)^(((52 - natLog2 u : ℕ)) : ℤ) *
                ((b:ℚ) * (2:ℚ)^(((c + (natLog2 u:ℤ) - 52).toNat : ℤ))) =
              (u:ℚ) * ((2:ℚ)^(((52 - natLog2 u : ℕ)) : ℤ) *
                (2:ℚ)^(((c + (natLog2 u:ℤ) - 52).toNat : ℤ))) * b from by ring,
            ← zpow_add₀ (by norm_num : (2:ℚ) ≠ 0),
            show (((52 - natLog2 u : ℕ)) : ℤ) + (((c + (natLog2 u:ℤ) - 52).toNat : ℤ)) = c
              from by omega]
      exact_mod_cast hq
    have hdpos : 0 < b * 2^((c + (natLog2 u:ℤ) - 52).toNat) := by positivity
    have hdvd : (b * 2^((c + (natLog2 u:ℤ) - 52).toNat)) ∣ a :=
      ⟨u * 2^(52 - natLog2 u), by rw [hkey]; ring⟩
    rw [rnHalfEven_exact _ _ hdpos hdvd, hkey, Nat.mul_div_cancel _ hdpos]
    rw [if_neg (by omega)]
    rw [toRat]
    push_cast
    rw [← zpow_natCast (2:ℚ) (52 - natLog2 u), mul_assoc,
        ← zpow_add₀ (by norm_num : (2:ℚ) ≠ 0)]
    congr 2
    omega

/-- Claim C2 (amended): the decoded amount is the IEEE-754 binary64 result of
`value / 1e18`, not the exact rational `v / 10^18`; the two agree exactly
whenever the base-unit amount `v` is at most `2^53` and divisible by `5^18`
(so that `v / 10^18` is representable in binary64).  For other amounts the
binary64 result differs from the exact rational (see the counterexample at
`v = 1`). -/
theorem c2_amended_decode_exact (l : RawLog)
    (h3 : 3 ≤ l.topics.length) (hd : l.data ≠ [])
    (hv : beNat l.data ≤ 2^53) (hdvd : 5^18 ∣ beNat l.data) :
    ∃ t, decode_transfer_event l = some t ∧
      toRat t.value = (beNat l.data : ℚ) / 10^18 := by
  rw [decode_transfer_event, if_pos ⟨h3, hd⟩]
  refine ⟨_, rfl, ?_⟩
  show toRat (Fl.div (Fl.ofNat (beNat l.data)) (Fl.ofNat (10^18))) = _
  by_cases hv0 : beNat l.data = 0
  · rw [hv0]
    rw [show Fl.ofNat 0 = ⟨0, 0⟩ from rfl]
    rw [Fl.div, if_pos (Or.inl rfl)]
    norm_num [toRat]
  · obtain ⟨M, hxeq, hM1, hM2, hMval⟩ := ofNat_exact (beNat l.data) (by omega) hv
    have hyeq : Fl.ofNat (10^18) = ⟨(2^11 * 5^18 : ℤ), 7⟩ := by decide
    have huv : beNat l.data / 5^18 * 5^18 = beNat l.data := Nat.div_mul_cancel hdvd
    have hu1 : 1 ≤ beNat l.data / 5^18 := by
      apply (Nat.one_le_div_iff (by norm_num)).mpr
      exact Nat.le_of_dvd (by omega) hdvd
    have hu2 : beNat l.data / 5^18 < 2^53 := by
      rcases Nat.lt_or_ge (beNat l.data / 5^18) (2^53) with h | h
      · exact h
      · exfalso
        have hbig : 2^53 * 5^18 ≤ beNat l.data / 5^18 * 5^18 :=
          Nat.mul_le_mul_right _ h
        rw [huv] at hbig
        have : (2:ℕ)^53 * 5^18 ≤ 2^53 := le_trans hbig hv
        norm_num at this
    have hM : (M:ℚ) = (beNat l.data : ℚ) * (2:ℚ)^(52 - (natLog2 (beNat l.data) : ℤ)) := by
      rw [← hMval, mul_assoc, ← zpow_add₀ (by norm_num : (2:ℚ) ≠ 0),
          show (natLog2 (beNat l.data) : ℤ) - 52 + (52 - (natLog2 (beNat l.data) : ℤ)) = 0
            from by ring,
          zpow_zero, mul_one]
    have hval : (M:ℚ) = ((beNat l.data / 5^18 : ℕ) : ℚ) *
        (2:ℚ)^(41 - (natLog2 (beNat l.data) : ℤ)) * ((2^11 * 5^18 : ℕ) : ℚ) := by
      rw [hM]
      have hvq : (beNat l.data : ℚ) = ((beNat l.data / 5^18 : ℕ) : ℚ) * 5^18 := by
        exact_mod_cast congrArg (Nat.cast : ℕ → ℚ) huv.symm
      rw [hvq]
      have hpow : (2:ℚ)^(41 - (natLog2 (beNat l.data) : ℤ)) * (2:ℚ)^(11:ℕ) =
          (2:ℚ)^(52 - (natLog2 (beNat l.data) : ℤ)) := by
        rw [← zpow_natCast (2:ℚ) 11, ← zpow_add₀ (by norm_num : (2:ℚ) ≠ 0)]
        congr 1
        omega
      rw [← hpow]
      push_cast
      ring
    rw [hxeq, hyeq, Fl.div]
    rw [if_neg (by
      push_neg
      constructor
      · show ¬(M:ℤ) = 0
        exact_mod_cast (by omega : M ≠ 0)
      · norm_num)]
    rw [if_pos (Or.inl ⟨show (0:ℤ) < (M:ℤ) from by exact_mod_cast (by omega : 0 < M),
      by norm_num⟩)]
    have hna1 : ((M:ℤ)).natAbs = M := Int.natAbs_ofNat M
    have hna2 : ((2^11 * 5^18 : ℤ)).natAbs = (2^11 * 5^18 : ℕ) := by decide
    rw [show (⟨(M:ℤ), (natLog2 (beNat l.data) : ℤ) - 52⟩ : Fl).m = (M:ℤ) from rfl,
        show (⟨(M:ℤ), (natLog2 (beNat l.data) : ℤ) - 52⟩ : Fl).e =
          (natLog2 (beNat l.data) : ℤ) - 52 from rfl,
        show (⟨(2^11 * 5^18 : ℤ), 7⟩ : Fl).m = (2^11 * 5^18 : ℤ) from rfl,
        show (⟨(2^11 * 5^18 : ℤ), 7⟩ : Fl).e = (7:ℤ) from rfl,
        hna1, hna2]
    rw [roundPosRat_exact M (2^11 * 5^18) (beNat l.data / 5^18)
        (41 - (natLog2 (beNat l.data) : ℤ)) ((natLog2 (beNat l.data) : ℤ) - 52 - 7)
        (by omega) (by norm_num) (lt_of_lt_of_le hM2 (by norm_num)) (by norm_num)
        hu1 hu2 hval]
    rw [show 41 - (natLog2 (beNat l.data) : ℤ) +
        ((natLog2 (beNat l.data) : ℤ) - 52 - 7) = -(18:ℤ) from by ring]
    rw [show (-(18:ℤ)) = -((18:ℕ):ℤ) from by norm_num, zpow_neg, zpow_natCast]
    rw [show (beNat l.data : ℚ) = ((beNat l.data / 5^18 : ℕ) : ℚ) * 5^18 from by
      exact_mod_cast congrArg (Nat.cast : ℕ → ℚ) huv.symm]
    have hfrac : ((2:ℚ)^18)⁻¹ = 5^18 / 10^18 := by norm_num
    rw [hfrac]
    ring

/-! ## Witnesses -/

theorem exTs_mono : Monotone exTs := fun a b h => by
  simp only [exTs]
  omega

theorem c1_witness :
    get_token_metrics exTs 10 100 1000 1000 (some (1, 10, 5)) [some []] =
      get_token_metrics exTs 10 100 1000 1000 none [some []] ∧
    ∃ tr, (get_token_metrics exTs 10 100 1000 1000 (some (1, 10, 5)) [some []]).2 =
      Ev.checkpoint (find_block_by_timestamp exTs 10 100)
        (find_block_by_timestamp exTs 10 1000)
        (find_block_by_timestamp exTs 10 100) ::
      Ev.fetchAttempt (find_block_by_timestamp exTs 10 100)
        (min (find_block_by_timestamp exTs 10 100 + 1000)
          (find_block_by_timestamp exTs 10 1000)) :: tr :=
  c1_amended_no_resume exTs 10 100 1000 1000 (some (1, 10, 5)) none (some []) []
    (by rw [exTs_locate_100]; norm_num)
    (by rw [exTs_locate_1000]; norm_num)
    (by rw [exTs_locate_100, exTs_locate_1000]; norm_num)

theorem c2_witness :
    ∃ t, decode_transfer_event (exLogOfValue (5^18)) = some t ∧
      toRat t.value = (beNat (exLogOfValue (5^18)).data : ℚ) / 10^18 :=
  c2_amended_decode_exact (exLogOfValue (5^18)) (by decide) (by decide) (by decide)
    ⟨1, by decide⟩

theorem c3_witness :
    fetchesOf (runFrom exTs 6 [some [], some [], some [], some [], some []]
        ⟨1, 4, (1, 6, 1), []⟩).2 = chunkWalk 6 4 1 ∧
    (chunkWalk 6 4 1).countP (fun p => decide (p.1 ≤ 3 ∧ 3 ≤ p.2)) =
      (if 1 ≤ 3 ∧ 3 < walkFinal 6 4 1 then 1 else 0) ∧
    6 ≤ walkFinal 6 4 1 ∧ walkFinal 6 4 1 ≤ 6 + 1 ∧
    (runFrom exTs 6 [some [], some [], some [], some [], some []]
        ⟨1, 4, (1, 6, 1), []⟩).1.current_block = walkFinal 6 4 1 := by
  have h := c3_amended_chunk_coverage exTs 6 [some [], some [], some [], some [], some []]
    ⟨1, 4, (1, 6, 1), []⟩ (by decide) (by decide)
  exact ⟨h.1, h.2.2.2.1 3, (h.2.2.2.2.2.1 (by norm_num)).1,
    (h.2.2.2.2.2.1 (by norm_num)).2, h.2.2.2.2.1⟩

theorem c4_witness :
    1 ≤ find_block_by_timestamp exTs 2 101 ∧ find_block_by_timestamp exTs 2 101 ≤ 2 := by
  have h := c4_amended_locate exTs 2 101 exTs_mono (by norm_num)
  exact ⟨h.1, h.2.1⟩

theorem c5_witness :
    (afind (chunk_metrics (fun _ => 0)
        [exLogOfValue (2^53 * 10^18), exLogOfValue (10^18), exLogOfValue (10^18)]) 0).transactions =
      (afind (chunk_metrics (fun _ => 0)
        [exLogOfValue (10^18), exLogOfValue (10^18), exLogOfValue (2^53 * 10^18)]) 0).transactions ∧
    (afind (chunk_metrics (fun _ => 0)
        [exLogOfValue (2^53 * 10^18), exLogOfValue (10^18), exLogOfValue (10^18)]) 0).senders =
      (afind (chunk_metrics (fun _ => 0)
        [exLogOfValue (10^18), exLogOfValue (10^18), exLogOfValue (2^53 * 10^18)]) 0).senders ∧
    (afind (chunk_metrics (fun _ => 0)
        [exLogOfValue (2^53 * 10^18), exLogOfValue (10^18), exLogOfValue (10^18)]) 0).receivers =
      (afind (chunk_metrics (fun _ => 0)
        [exLogOfValue (10^18), exLogOfValue (10^18), exLogOfValue (2^53 * 10^18)]) 0).receivers ∧
    (afind (chunk_metrics (fun _ => 0)
        [exLogOfValue (2^53 * 10^18), exLogOfValue (10^18), exLogOfValue (10^18)]) 0).active_addresses =
      (afind (chunk_metrics (fun _ => 0)
        [exLogOfValue (10^18), exLogOfValue (10^18), exLogOfValue (2^53 * 10^18)]) 0).active_addresses :=
  c5_amended_order_independent (fun _ => 0)
    [exLogOfValue (2^53 * 10^18), exLogOfValue (10^18), exLogOfValue (10^18)]
    [exLogOfValue (10^18), exLogOfValue (10^18), exLogOfValue (2^53 * 10^18)]
    (by decide) 0

theorem c6_witness :
    ((decode_transfer_event ⟨1, [0, 11], [1]⟩).isSome ↔
      3 ≤ (⟨1, [0, 11], [1]⟩ : RawLog).topics.length ∧
        (⟨1, [0, 11], [1]⟩ : RawLog).data ≠ []) ∧
    processEvent exTs [] ⟨1, [0, 11], [1]⟩ = [] ∧
    (stepIter exTs 10 ⟨1, 1000, (1, 10, 1), []⟩ (some [⟨1, [0, 11], [1]⟩])).2.2 = false := by
  have h := c6_amended_decode ⟨1, [0, 11], [1]⟩
  exact ⟨h.1, h.2.1 (by decide) exTs [], h.2.2 exTs 10 ⟨1, 1000, (1, 10, 1), []⟩ _⟩

theorem c7_witness :
    (stepIter (fun _ => 0) 50 ⟨1, 1000, (1, 50, 1), []⟩ none).1.chunk_size = 1000 / 2 ∧
    (stepIter (fun _ => 0) 50 ⟨1, 1000, (1, 50, 1), []⟩ none).1.current_block = 1 ∧
    (stepIter (fun _ => 0) 50 ⟨1, 1000, (1, 50, 1), []⟩ none).2.1 =
      [Ev.fetchAttempt 1 (min (1 + 1000) 50), Ev.sleep 2000] ∧
    (stepIter (fun _ => 0) 50 ⟨1, 1000, (1, 50, 1), []⟩ none).1.chunk_size ≤ 1000 := by
  have h := c7_amended_backoff (fun _ => 0) 50 ⟨1, 1000, (1, 50, 1), []⟩
  exact ⟨h.1, h.2.1, h.2.2.2.1 (by norm_num), h.2.2.2.2.2.2 none⟩

theorem c8_witness :
    marksOkB 0
      (marksOf (get_token_metrics exTs 10 100 1000 1000 none [some []]).2) = true ∧
    List.Chain' (· ≤ ·)
      (cpLastsOf (get_token_metrics exTs 10 100 1000 1000 none [some []]).2) :=
  c8_flush_before_checkpoint exTs 10 100 1000 1000 none [some []] (by norm_num)
